import Mathlib

/-!
Verification of the easify-seller conversational-commerce bot.

The development shallowly embeds the Python sources:

* `src/search_tools.py` — semantic retrieval: filter construction, the
  dedupe-and-rank step over raw index matches, payment-URL generation;
* `src/app/agent.py` — the tool-calling orchestration loop
  (`AISellerAgent.process_message`, `AISellerAgent._execute_tool_call`);
* `src/app/bot.py` — the re-engagement scheduler
  (`update_user_activity`, `schedule_followups`, `send_followup`) and
  `extract_payment_url`.

Numbers that are Python floats are modelled as rationals, Python strings as
Lean strings (or character lists where a regular expression is involved),
Python `None` for an optional argument as `Option.none`.  External
collaborators (the vector index, the embedding models, the completion
service) are parameters of the embedded functions, as the spec treats them
as opaque collaborators.
-/

set_option maxHeartbeats 1000000

namespace EasifySeller

/-! ## Data model of the retrieval engine (src/search_tools.py) -/

/-- Metadata snapshot stored with each embedding document, with the fields the
repository reads: `bouquet_id` (src/search_tools.py), `name_en`,
`description_en`, `price`, `photo_url` (src/app/agent.py,
`format_search_results_for_ai`). -/
structure Meta where
  bouquet_id : Nat
  name_en : String
  description_en : String
  price : Rat
  photo_url : String
deriving DecidableEq

/-- One raw index match: a distance together with its metadata snapshot, as in
the parallel arrays `results['distances']` / `results['metadatas']` returned
by `collection.query`. -/
structure RawMatch where
  dist : Rat
  meta : Meta
deriving DecidableEq

/-- An entry of the `bouquet_scores` dict: `{'score': ..., 'meta': ...}`. -/
structure Entry where
  score : Rat
  meta : Meta
deriving DecidableEq

/-- `score = 1 - distances[i]` — distance-to-similarity conversion performed
for each raw match. -/
def entryOf (m : RawMatch) : Entry := ⟨1 - m.dist, m.meta⟩

/-- The guarded dict write
`if bid not in bouquet_scores or score > bouquet_scores[bid]['score']:
bouquet_scores[bid] = {...}` on an insertion-ordered dict (CPython dicts
preserve insertion order, and updating an existing key keeps its position):
an absent key is appended at the end, a present key keeps its position and
its entry is replaced exactly when the new score is strictly greater. -/
def updateScore : List (Nat × Entry) → Nat → Entry → List (Nat × Entry)
  | [], bid, e => [(bid, e)]
  | (b, old) :: rest, bid, e =>
    if b = bid then (b, if old.score < e.score then e else old) :: rest
    else (b, old) :: updateScore rest bid e

/-- The dedupe loop of `search_products_by_text` / `search_products_by_photo`:
fold the raw matches into the insertion-ordered `bouquet_scores` dict. -/
def bouquet_scores (ms : List RawMatch) : List (Nat × Entry) :=
  ms.foldl (fun d m => updateScore d m.meta.bouquet_id (entryOf m)) []

/-- Descending comparison by score, the order used by
`sorted(bouquet_scores.values(), key=lambda x: x['score'], reverse=True)`. -/
def scoreGe (a b : Entry) : Prop := b.score ≤ a.score

instance : DecidableRel scoreGe := fun a b => inferInstanceAs (Decidable (b.score ≤ a.score))

instance : IsTotal Entry scoreGe := ⟨fun a b => le_total b.score a.score⟩

instance : IsTrans Entry scoreGe := ⟨fun _ _ _ h1 h2 => le_trans h2 h1⟩

/-- CPython's `sorted` is a stable sort; a stable sort is determined by the
comparison, so it is modelled by the stable `List.insertionSort` with
`scoreGe` (descending by score, ties kept in first-seen order). -/
def sortByScoreDesc (l : List Entry) : List Entry := l.insertionSort scoreGe

/-- The dedupe-and-rank step (spec 4.1 `rank`): fold raw matches into
`bouquet_scores`, sort the dict values by score descending, truncate to `k` —
`sorted(bouquet_scores.values(), key=..., reverse=True)[:k]`. -/
def rank (ms : List RawMatch) (k : Nat) : List Entry :=
  (sortByScoreDesc ((bouquet_scores ms).map Prod.snd)).take k

/-! ## Metadata filter construction (src/search_tools.py lines 52-66, 119-131) -/

/-- One metadata predicate: `{"type": {"$eq": t}}`, `{"price": {"$gte": p}}`
or `{"price": {"$lte": p}}`. -/
inductive FilterPred where
  | typeEq (t : String)
  | priceGte (p : Rat)
  | priceLte (p : Rat)
deriving DecidableEq

/-- The `where` argument handed to `collection.query`: `None`, a single bare
predicate, or `{"$and": [...]}`. -/
inductive WhereFilter where
  | noFilter
  | single (f : FilterPred)
  | conj (fs : List FilterPred)
deriving DecidableEq

/-- The `filters` list built by `search_products_by_text`.  The source tests
each argument with `if document_type:` / `if min_price:` / `if max_price:`,
i.e. by Python truthiness: `None`, the empty string and the number `0` all
skip the predicate. -/
def textFilters (document_type : Option String) (min_price max_price : Option Rat) :
    List FilterPred :=
  (match document_type with
   | Option.some t => if t ≠ "" then [FilterPred.typeEq t] else []
   | Option.none => []) ++
  (match min_price with
   | Option.some p => if p ≠ 0 then [FilterPred.priceGte p] else []
   | Option.none => []) ++
  (match max_price with
   | Option.some p => if p ≠ 0 then [FilterPred.priceLte p] else []
   | Option.none => [])

/-- The `filters` list built by `search_products_by_photo` (price bounds only,
same truthiness tests). -/
def photoFilters (min_price max_price : Option Rat) : List FilterPred :=
  (match min_price with
   | Option.some p => if p ≠ 0 then [FilterPred.priceGte p] else []
   | Option.none => []) ++
  (match max_price with
   | Option.some p => if p ≠ 0 then [FilterPred.priceLte p] else []
   | Option.none => [])

/-- `if not filters: None; elif len(filters) == 1: filters[0];
else {"$and": filters}`. -/
def whereFilterOf (filters : List FilterPred) : WhereFilter :=
  match filters with
  | [] => WhereFilter.noFilter
  | [f] => WhereFilter.single f
  | fs => WhereFilter.conj fs

/-- Python default of the `k` parameter: `def search_products_by_text(...,
k=5)`, `def search_products_by_photo(..., k=5)` in src/search_tools.py, and
`function_args.get("k", 5)` in `AISellerAgent._execute_tool_call`. -/
def search_default_k : Nat := 5

/-- `search_products_by_text` (src/search_tools.py): build the filter from
the truthy arguments, query the index for `2 * k` candidates (oversampling
for the dedupe), then dedupe and rank.  The query embedding and the ChromaDB
collection are external collaborators, folded into the `index` parameter. -/
def search_products_by_text (index : WhereFilter → Nat → List RawMatch)
    (document_type : Option String) (min_price max_price : Option Rat) (k : Nat) :
    List Entry :=
  rank (index (whereFilterOf (textFilters document_type min_price max_price)) (2 * k)) k

/-- `search_products_by_photo` (src/search_tools.py): price-only filter,
`n_results=k * 2`, then the same dedupe-and-rank. -/
def search_products_by_photo (index : WhereFilter → Nat → List RawMatch)
    (min_price max_price : Option Rat) (k : Nat) : List Entry :=
  rank (index (whereFilterOf (photoFilters min_price max_price)) (k * 2)) k

/-! ## Characterization of the dedupe fold -/

/-- Association-list lookup, the proof-side counterpart of
`bouquet_scores[bid]`. -/
def alookup (b : Nat) : List (Nat × Entry) → Option Entry
  | [] => Option.none
  | (b2, e) :: rest => if b2 = b then Option.some e else alookup b rest

/-- The replacement performed on a present key: the new entry wins exactly
when its score is strictly greater. -/
def combineEntry (old new : Entry) : Entry := if old.score < new.score then new else old

/-- The per-product accumulator of the dedupe loop, processing the raw
matches left to right exactly as the fold does. -/
def bestEntryAux (b : Nat) : Option Entry → List RawMatch → Option Entry
  | acc, [] => acc
  | acc, m :: rest =>
    bestEntryAux b
      (if m.meta.bouquet_id = b then
        Option.some (match acc with
          | Option.none => entryOf m
          | Option.some old => combineEntry old (entryOf m))
       else acc) rest

/-- The entry the dedupe loop keeps for product `b`. -/
def bestEntry (b : Nat) (ms : List RawMatch) : Option Entry :=
  bestEntryAux b Option.none ms

/-- Well-formedness of the `bouquet_scores` dict: every stored entry carries
its own key as `bouquet_id`, and keys are unique. -/
def WFdict (d : List (Nat × Entry)) : Prop :=
  (∀ p ∈ d, p.2.meta.bouquet_id = p.1) ∧ (d.map Prod.fst).Nodup

theorem alookup_updateScore (d : List (Nat × Entry)) (bid b : Nat) (e : Entry) :
    alookup b (updateScore d bid e) =
      if bid = b then
        Option.some (match alookup b d with
          | Option.none => e
          | Option.some old => combineEntry old e)
      else alookup b d := by
  induction d with
  | nil =>
    by_cases h : bid = b <;> simp [updateScore, alookup, h]
  | cons p rest ih =>
    obtain ⟨b2, old⟩ := p
    by_cases h2 : b2 = bid
    · subst h2
      by_cases h : b2 = b
      · subst h
        simp [updateScore, alookup, combineEntry]
      · simp [updateScore, alookup, h]
    · by_cases h : b2 = b
      · subst h
        have hbid : ¬ bid = b2 := fun hc => h2 hc.symm
        simp [updateScore, alookup, h2, hbid]
      · simp [updateScore, alookup, h2, h, ih]

theorem keys_updateScore (d : List (Nat × Entry)) (bid : Nat) (e : Entry) :
    (updateScore d bid e).map Prod.fst =
      if bid ∈ d.map Prod.fst then d.map Prod.fst else d.map Prod.fst ++ [bid] := by
  induction d with
  | nil => simp [updateScore]
  | cons p rest ih =>
    obtain ⟨b2, old⟩ := p
    by_cases h2 : b2 = bid
    · subst h2
      simp [updateScore]
    · have h2s : ¬ bid = b2 := fun hc => h2 hc.symm
      by_cases hm : bid ∈ rest.map Prod.fst <;>
        simp [updateScore, h2, h2s, hm, ih]

theorem WFdict_updateScore {d : List (Nat × Entry)} {bid : Nat} {e : Entry}
    (hd : WFdict d) (he : e.meta.bouquet_id = bid) : WFdict (updateScore d bid e) := by
  obtain ⟨hfield, hkeys⟩ := hd
  constructor
  · intro p hp
    induction d with
    | nil =>
      simp [updateScore] at hp
      simp [hp, he]
    | cons q rest ih =>
      obtain ⟨b2, old⟩ := q
      by_cases h2 : b2 = bid
      · have hold : old.meta.bouquet_id = b2 := hfield (b2, old) (by simp)
        simp only [updateScore, if_pos h2, List.mem_cons] at hp
        rcases hp with hp | hp
        · subst hp
          by_cases hlt : old.score < e.score <;> simp [hlt, h2, he, hold]
        · exact hfield p (by simp [hp])
      · simp [updateScore, h2] at hp
        rcases hp with hp | hp
        · exact hfield p (by simp [hp])
        · exact ih (fun q hq => hfield q (by simp at hq ⊢; tauto))
            (by simp at hkeys; tauto) hp
  · rw [keys_updateScore]
    by_cases hm : bid ∈ d.map Prod.fst
    · simpa [hm] using hkeys
    · simp [List.nodup_append, hm, hkeys]

theorem WFdict_bouquet_scores (ms : List RawMatch) : WFdict (bouquet_scores ms) := by
  have main : ∀ (l : List RawMatch) (d : List (Nat × Entry)), WFdict d →
      WFdict (l.foldl (fun d m => updateScore d m.meta.bouquet_id (entryOf m)) d) := by
    intro l
    induction l with
    | nil => intro d hd; simpa using hd
    | cons m rest ih =>
      intro d hd
      exact ih _ (WFdict_updateScore hd rfl)
  exact main ms [] ⟨by simp, by simp⟩

theorem alookup_foldl (ms : List RawMatch) (d : List (Nat × Entry)) (b : Nat) :
    alookup b (ms.foldl (fun d m => updateScore d m.meta.bouquet_id (entryOf m)) d) =
      bestEntryAux b (alookup b d) ms := by
  induction ms generalizing d with
  | nil => simp [bestEntryAux]
  | cons m rest ih =>
    simp only [List.foldl_cons]
    rw [ih]
    by_cases h : m.meta.bouquet_id = b
    · rw [alookup_updateScore]
      simp [bestEntryAux, h]
    · rw [alookup_updateScore]
      simp [bestEntryAux, h]

theorem alookup_bouquet_scores (ms : List RawMatch) (b : Nat) :
    alookup b (bouquet_scores ms) = bestEntry b ms := by
  unfold bouquet_scores bestEntry
  rw [alookup_foldl]
  simp [alookup]

theorem mem_iff_alookup {d : List (Nat × Entry)} (hkeys : (d.map Prod.fst).Nodup)
    (b : Nat) (e : Entry) : (b, e) ∈ d ↔ alookup b d = Option.some e := by
  induction d with
  | nil => simp [alookup]
  | cons p rest ih =>
    obtain ⟨b2, e2⟩ := p
    simp only [List.map_cons, List.nodup_cons] at hkeys
    by_cases h : b2 = b
    · subst h
      simp only [alookup, if_pos rfl]
      constructor
      · intro hm
        rcases List.mem_cons.mp hm with hm | hm
        · simp at hm
          simp [hm]
        · exact absurd (List.mem_map.mpr ⟨(b2, e), hm, rfl⟩) hkeys.1
      · intro hm
        simp at hm
        simp [hm]
    · simp only [alookup, if_neg h]
      rw [← ih hkeys.2]
      constructor
      · intro hm
        rcases List.mem_cons.mp hm with hm | hm
        · exact absurd (congrArg Prod.fst hm).symm h
        · exact hm
      · intro hm
        exact List.mem_cons_of_mem _ hm

theorem combineEntry_score_le_left (old new : Entry) : old.score ≤ (combineEntry old new).score := by
  unfold combineEntry
  by_cases h : old.score < new.score <;> simp [h]
  exact le_of_lt h

theorem combineEntry_score_le_right (old new : Entry) : new.score ≤ (combineEntry old new).score := by
  unfold combineEntry
  by_cases h : old.score < new.score <;> simp [h]
  exact le_of_not_lt h

theorem combineEntry_eq_or (old new : Entry) :
    combineEntry old new = old ∨ combineEntry old new = new := by
  unfold combineEntry
  by_cases h : old.score < new.score <;> simp [h]

theorem bestEntryAux_none_iff (b : Nat) (ms : List RawMatch) (acc : Option Entry) :
    bestEntryAux b acc ms = Option.none ↔
      acc = Option.none ∧ ∀ m ∈ ms, m.meta.bouquet_id ≠ b := by
  induction ms generalizing acc with
  | nil => simp [bestEntryAux]
  | cons m rest ih =>
    by_cases h : m.meta.bouquet_id = b
    · simp only [bestEntryAux, if_pos h]
      rw [ih]
      simp [h]
    · simp only [bestEntryAux, if_neg h]
      rw [ih]
      constructor
      · rintro ⟨h1, h2⟩
        exact ⟨h1, by intro m2 hm2; rcases List.mem_cons.mp hm2 with hm2 | hm2
                      · exact hm2 ▸ h
                      · exact h2 m2 hm2⟩
      · rintro ⟨h1, h2⟩
        exact ⟨h1, fun m2 hm2 => h2 m2 (List.mem_cons_of_mem _ hm2)⟩

theorem bestEntryAux_spec (b : Nat) (ms : List RawMatch) (acc : Option Entry) (e : Entry)
    (h : bestEntryAux b acc ms = Option.some e) :
    (acc = Option.some e ∨ ∃ m ∈ ms, m.meta.bouquet_id = b ∧ entryOf m = e) ∧
      (∀ a, acc = Option.some a → a.score ≤ e.score) ∧
      (∀ m ∈ ms, m.meta.bouquet_id = b → (entryOf m).score ≤ e.score) := by
  induction ms generalizing acc with
  | nil =>
    simp only [bestEntryAux] at h
    refine ⟨Or.inl h, ?_, by simp⟩
    intro a ha
    rw [ha] at h
    simp at h
    simp [h]
  | cons m rest ih =>
    by_cases hm : m.meta.bouquet_id = b
    · simp only [bestEntryAux, if_pos hm] at h
      rcases acc with _ | old
      · have spec := ih _ h
        refine ⟨?_, by simp, ?_⟩
        · rcases spec.1 with h1 | h1
          · simp at h1
            exact Or.inr ⟨m, by simp, hm, h1⟩
          · obtain ⟨m2, hm2, hb2, he2⟩ := h1
            exact Or.inr ⟨m2, List.mem_cons_of_mem _ hm2, hb2, he2⟩
        · intro m2 hm2 hb2
          rcases List.mem_cons.mp hm2 with hm2 | hm2
          · subst hm2
            exact spec.2.1 _ rfl
          · exact spec.2.2 m2 hm2 hb2
      · have spec := ih _ h
        refine ⟨?_, ?_, ?_⟩
        · rcases spec.1 with h1 | h1
          · simp at h1
            rcases combineEntry_eq_or old (entryOf m) with hc | hc
            · exact Or.inl (by rw [← h1, hc])
            · exact Or.inr ⟨m, by simp, hm, by rw [← h1, hc]⟩
          · obtain ⟨m2, hm2, hb2, he2⟩ := h1
            exact Or.inr ⟨m2, List.mem_cons_of_mem _ hm2, hb2, he2⟩
        · intro a ha
          injection ha with ha
          subst ha
          exact le_trans (combineEntry_score_le_left old (entryOf m)) (spec.2.1 _ rfl)
        · intro m2 hm2 hb2
          rcases List.mem_cons.mp hm2 with hm2 | hm2
          · subst hm2
            exact le_trans (combineEntry_score_le_right old (entryOf m2)) (spec.2.1 _ rfl)
          · exact spec.2.2 m2 hm2 hb2
    · simp only [bestEntryAux, if_neg hm] at h
      have spec := ih _ h
      refine ⟨?_, spec.2.1, ?_⟩
      · rcases spec.1 with h1 | h1
        · exact Or.inl h1
        · obtain ⟨m2, hm2, hb2, he2⟩ := h1
          exact Or.inr ⟨m2, List.mem_cons_of_mem _ hm2, hb2, he2⟩
      · intro m2 hm2 hb2
        rcases List.mem_cons.mp hm2 with hm2 | hm2
        · exact absurd (hm2 ▸ hb2) hm
        · exact spec.2.2 m2 hm2 hb2

/-- The entry kept for a product is one of its raw occurrences converted to a
similarity, and its score dominates every occurrence of that product. -/
theorem bestEntry_spec (b : Nat) (ms : List RawMatch) (e : Entry)
    (h : bestEntry b ms = Option.some e) :
    (∃ m ∈ ms, m.meta.bouquet_id = b ∧ entryOf m = e) ∧
      ∀ m ∈ ms, m.meta.bouquet_id = b → (entryOf m).score ≤ e.score := by
  have spec := bestEntryAux_spec b ms Option.none e h
  refine ⟨?_, spec.2.2⟩
  rcases spec.1 with h1 | h1
  · simp at h1
  · exact h1

theorem bestEntry_none_iff (b : Nat) (ms : List RawMatch) :
    bestEntry b ms = Option.none ↔ ∀ m ∈ ms, m.meta.bouquet_id ≠ b := by
  unfold bestEntry
  rw [bestEntryAux_none_iff]
  simp

/-- Two lists sorted descending by score, which are permutations of each other
and have pairwise-distinct scores, are equal. -/
theorem eq_of_perm_sorted_nodup_scores :
    ∀ (l1 l2 : List Entry), l1.Perm l2 → List.Sorted scoreGe l1 → List.Sorted scoreGe l2 →
      (l1.map Entry.score).Nodup → l1 = l2
  | [], l2, hp, _, _, _ => List.Perm.nil_eq hp
  | a :: t1, [], hp, _, _, _ => absurd (List.Perm.symm hp) (by simp)
  | a :: t1, b :: t2, hp, hs1, hs2, hnd => by
    have hab : a = b := by
      by_contra hne
      have ha2 : a ∈ b :: t2 := hp.mem_iff.mp (by simp)
      have hb1 : b ∈ a :: t1 := hp.mem_iff.mpr (by simp)
      have hat2 : a ∈ t2 := by
        rcases List.mem_cons.mp ha2 with h | h
        · exact absurd h hne
        · exact h
      have hbt1 : b ∈ t1 := by
        rcases List.mem_cons.mp hb1 with h | h
        · exact absurd h.symm hne
        · exact h
      have h1 : a.score ≤ b.score := (List.sorted_cons.mp hs2).1 a hat2
      have h2 : b.score ≤ a.score := (List.sorted_cons.mp hs1).1 b hbt1
      have hsc : a.score = b.score := le_antisymm h1 h2
      have : a.score ∈ t1.map Entry.score := List.mem_map.mpr ⟨b, hbt1, hsc.symm⟩
      exact (List.nodup_cons.mp hnd).1 this
    subst hab
    have ht : t1 = t2 :=
      eq_of_perm_sorted_nodup_scores t1 t2 hp.cons_inv
        (List.sorted_cons.mp hs1).2 (List.sorted_cons.mp hs2).2 (List.nodup_cons.mp hnd).2
    rw [ht]

theorem alookup_eq_none_iff (b : Nat) (d : List (Nat × Entry)) :
    alookup b d = Option.none ↔ b ∉ d.map Prod.fst := by
  induction d with
  | nil => simp [alookup]
  | cons p rest ih =>
    obtain ⟨b2, e2⟩ := p
    by_cases h : b2 = b
    · simp [alookup, h]
    · simp only [alookup, if_neg h, List.map_cons, List.mem_cons]
      rw [ih]
      have hne : ¬ b = b2 := fun hc => h hc.symm
      tauto

theorem keys_bouquet_scores_mem (ms : List RawMatch) (b : Nat) :
    b ∈ (bouquet_scores ms).map Prod.fst ↔
      b ∈ ms.map (fun m => m.meta.bouquet_id) := by
  rw [← not_iff_not, ← alookup_eq_none_iff, alookup_bouquet_scores, bestEntry_none_iff]
  simp

theorem bids_of_values (ms : List RawMatch) :
    ((bouquet_scores ms).map Prod.snd).map (fun e => e.meta.bouquet_id) =
      (bouquet_scores ms).map Prod.fst := by
  rw [List.map_map]
  exact List.map_congr_left (fun p hp => (WFdict_bouquet_scores ms).1 p hp)

/-- Concrete metadata for the worked examples of spec section 8 (product A is
`bouquet_id` 1, product B is `bouquet_id` 2). -/
def metaA : Meta := ⟨1, "A", "", 0, ""⟩

/-- Metadata of example product B. -/
def metaB : Meta := ⟨2, "B", "", 0, ""⟩

/-- The spec's end-to-end ranking example: raw matches
`[{id:A, dist:0.1}, {id:B, dist:0.3}, {id:A, dist:0.05}]`. -/
def exampleMatches : List RawMatch :=
  [⟨1/10, metaA⟩, ⟨3/10, metaB⟩, ⟨1/20, metaA⟩]

/-- C1: for every list of raw index matches and every `k`, the ranked output
contains each `bouquet_id` at most once; it is sorted by score descending; it
has at most `k` entries; every entry is one of its product's raw occurrences
converted to similarity `1 - dist` and its score dominates all occurrences of
that product (so it is the maximum similarity, i.e. 1 minus the minimum
distance); and when at most `k` distinct `bouquet_id`s occur in the raw
matches, every one of them appears in the output (no error, no padding).
`search_products_by_text` returns exactly this ranking of what the index
hands back. -/
theorem c1_rank_dedupe_sort_truncate (ms : List RawMatch) (k : Nat) :
    (∀ index dt mn mx,
        search_products_by_text index dt mn mx k =
          rank (index (whereFilterOf (textFilters dt mn mx)) (2 * k)) k) ∧
    ((rank ms k).map (fun e => e.meta.bouquet_id)).Nodup ∧
    List.Sorted scoreGe (rank ms k) ∧
    (rank ms k).length ≤ k ∧
    (∀ e ∈ rank ms k, ∃ m ∈ ms, m.meta.bouquet_id = e.meta.bouquet_id ∧
        entryOf m = e ∧
        ∀ m2 ∈ ms, m2.meta.bouquet_id = e.meta.bouquet_id → 1 - m2.dist ≤ e.score) ∧
    ((ms.map (fun m => m.meta.bouquet_id)).dedup.length ≤ k →
      ∀ b ∈ ms.map (fun m => m.meta.bouquet_id),
        b ∈ (rank ms k).map (fun e => e.meta.bouquet_id)) := by
  have hWF := WFdict_bouquet_scores ms
  have hperm : List.Perm (sortByScoreDesc ((bouquet_scores ms).map Prod.snd))
      ((bouquet_scores ms).map Prod.snd) := List.perm_insertionSort scoreGe _
  refine ⟨fun _ _ _ _ => rfl, ?_, ?_, ?_, ?_, ?_⟩
  · have h1 : (((bouquet_scores ms).map Prod.snd).map (fun e => e.meta.bouquet_id)).Nodup := by
      rw [bids_of_values]
      exact hWF.2
    have h2 : ((sortByScoreDesc ((bouquet_scores ms).map Prod.snd)).map
        (fun e => e.meta.bouquet_id)).Nodup :=
      ((hperm.map (fun e => e.meta.bouquet_id)).nodup_iff).mpr h1
    unfold rank
    rw [List.map_take]
    exact (List.take_sublist _ _).nodup h2
  · exact List.Pairwise.sublist (List.take_sublist _ _)
      (List.sorted_insertionSort scoreGe ((bouquet_scores ms).map Prod.snd))
  · exact List.length_take_le _ _
  · intro e he
    have he2 : e ∈ sortByScoreDesc ((bouquet_scores ms).map Prod.snd) :=
      (List.take_sublist _ _).mem he
    have he3 : e ∈ (bouquet_scores ms).map Prod.snd := hperm.mem_iff.mp he2
    obtain ⟨p, hp, hpe⟩ := List.mem_map.mp he3
    have hbid : e.meta.bouquet_id = p.1 := by rw [← hpe]; exact hWF.1 p hp
    have hl : alookup p.1 (bouquet_scores ms) = Option.some e := by
      rw [← mem_iff_alookup hWF.2]
      rw [← hpe]
      exact hp
    rw [alookup_bouquet_scores] at hl
    obtain ⟨⟨m, hm, hmb, hme⟩, hmax⟩ := bestEntry_spec p.1 ms e hl
    refine ⟨m, hm, by rw [hmb, hbid], hme, ?_⟩
    intro m2 hm2 hb2
    have := hmax m2 hm2 (by rw [hb2, hbid])
    simpa [entryOf] using this
  · intro hle b hb
    have hkeys_mem : ∀ b2, b2 ∈ (bouquet_scores ms).map Prod.fst ↔
        b2 ∈ (ms.map (fun m => m.meta.bouquet_id)).dedup := by
      intro b2
      rw [keys_bouquet_scores_mem, List.mem_dedup]
    have hkp : List.Perm ((bouquet_scores ms).map Prod.fst)
        ((ms.map (fun m => m.meta.bouquet_id)).dedup) :=
      (List.perm_ext_iff_of_nodup hWF.2 (List.nodup_dedup _)).mpr hkeys_mem
    have hlen : (bouquet_scores ms).length ≤ k := by
      have := hkp.length_eq
      simp only [List.length_map] at this
      omega
    have hlen2 : (sortByScoreDesc ((bouquet_scores ms).map Prod.snd)).length ≤ k := by
      rw [hperm.length_eq, List.length_map]
      exact hlen
    have hall : rank ms k = sortByScoreDesc ((bouquet_scores ms).map Prod.snd) :=
      List.take_of_length_le hlen2
    have hbk : b ∈ (bouquet_scores ms).map Prod.fst :=
      (keys_bouquet_scores_mem ms b).mpr hb
    obtain ⟨p, hp, hpb⟩ := List.mem_map.mp hbk
    have : p.2 ∈ (bouquet_scores ms).map Prod.snd := List.mem_map.mpr ⟨p, hp, rfl⟩
    have hmem : p.2 ∈ rank ms k := by
      rw [hall]
      exact hperm.mem_iff.mpr this
    refine List.mem_map.mpr ⟨p.2, hmem, ?_⟩
    rw [hWF.1 p hp, hpb]

/-- C1 witness: the spec's own end-to-end example — raw matches
`[{id:A, dist:0.1}, {id:B, dist:0.3}, {id:A, dist:0.05}]`, `k = 2` — where
the dedupe keeps A at similarity `0.95`, and both distinct ids fit in the
budget. -/
theorem c1_witness :
    ((exampleMatches.map (fun m => m.meta.bouquet_id)).dedup.length ≤ 2 ∧
      1 ∈ exampleMatches.map (fun m => m.meta.bouquet_id)) ∧
      1 ∈ (rank exampleMatches 2).map (fun e => e.meta.bouquet_id) := by
  refine ⟨⟨by decide, by decide⟩, ?_⟩
  exact (c1_rank_dedupe_sort_truncate exampleMatches 2).2.2.2.2.2 (by decide) 1 (by decide)

/-! ## C6: order-dependence of the ranking under score ties -/

/-- The spec example's raw matches with the first two entries swapped. -/
def exampleMatchesRot : List RawMatch :=
  [⟨3/10, metaB⟩, ⟨1/10, metaA⟩, ⟨1/20, metaA⟩]

/-- Two raw matches for distinct products at the same distance, in one order… -/
def tieMatches1 : List RawMatch := [⟨1/2, metaA⟩, ⟨1/2, metaB⟩]

/-- …and the same two raw matches in the opposite order. -/
def tieMatches2 : List RawMatch := [⟨1/2, metaB⟩, ⟨1/2, metaA⟩]

/-- C6 counterexample: the ranked top-K is NOT invariant under permutation of
the raw matches — the stable sort breaks the similarity tie by first
occurrence, so supplying the same multiset in a different order swaps the
tied products. -/
theorem c6_counterexample :
    List.Perm tieMatches1 tieMatches2 ∧ rank tieMatches1 2 ≠ rank tieMatches2 2 := by
  constructor
  · exact List.Perm.swap _ _ _
  · have h1 : rank tieMatches1 2 = [⟨1/2, metaA⟩, ⟨1/2, metaB⟩] := by
      norm_num [rank, bouquet_scores, updateScore, entryOf, tieMatches1, metaA, metaB,
        sortByScoreDesc, List.insertionSort, List.orderedInsert, scoreGe]
    have h2 : rank tieMatches2 2 = [⟨1/2, metaB⟩, ⟨1/2, metaA⟩] := by
      norm_num [rank, bouquet_scores, updateScore, entryOf, tieMatches2, metaA, metaB,
        sortByScoreDesc, List.insertionSort, List.orderedInsert, scoreGe]
    rw [h1, h2]
    simp [metaA, metaB]

theorem bestEntry_perm_congr {ms1 ms2 : List RawMatch}
    (hp : List.Perm ms1 ms2) (hnd : (ms1.map RawMatch.dist).Nodup) (b : Nat) :
    bestEntry b ms1 = bestEntry b ms2 := by
  have hinj := List.inj_on_of_nodup_map hnd
  cases h1 : bestEntry b ms1 with
  | none =>
    cases h2 : bestEntry b ms2 with
    | none => rfl
    | some e2 =>
      obtain ⟨⟨m2, hm2, hb2, _⟩, _⟩ := bestEntry_spec b ms2 e2 h2
      exact absurd hb2 ((bestEntry_none_iff b ms1).mp h1 m2 (hp.mem_iff.mpr hm2))
  | some e1 =>
    cases h2 : bestEntry b ms2 with
    | none =>
      obtain ⟨⟨m1, hm1, hb1, _⟩, _⟩ := bestEntry_spec b ms1 e1 h1
      exact absurd hb1 ((bestEntry_none_iff b ms2).mp h2 m1 (hp.mem_iff.mp hm1))
    | some e2 =>
      obtain ⟨⟨m1, hm1, hb1, he1⟩, hmax1⟩ := bestEntry_spec b ms1 e1 h1
      obtain ⟨⟨m2, hm2, hb2, he2⟩, hmax2⟩ := bestEntry_spec b ms2 e2 h2
      have hm21 : m2 ∈ ms1 := hp.mem_iff.mpr hm2
      have hs1 : (entryOf m2).score ≤ e1.score := hmax1 m2 hm21 hb2
      have hs2 : (entryOf m1).score ≤ e2.score := hmax2 m1 (hp.mem_iff.mp hm1) hb1
      rw [← he1] at hs1 ⊢
      rw [← he2] at hs2 ⊢
      have hsc : (entryOf m1).score = (entryOf m2).score := le_antisymm hs2 hs1
      have hd : m1.dist = m2.dist := by
        simp only [entryOf] at hsc
        linarith
      rw [hinj hm1 hm21 hd]

theorem bouquet_scores_perm {ms1 ms2 : List RawMatch}
    (hp : List.Perm ms1 ms2) (hnd : (ms1.map RawMatch.dist).Nodup) :
    List.Perm (bouquet_scores ms1) (bouquet_scores ms2) := by
  have h1 := WFdict_bouquet_scores ms1
  have h2 := WFdict_bouquet_scores ms2
  refine (List.perm_ext_iff_of_nodup (List.Nodup.of_map Prod.fst h1.2)
    (List.Nodup.of_map Prod.fst h2.2)).mpr ?_
  intro p
  have hpair : ∀ d : List (Nat × Entry), p ∈ d ↔ (p.1, p.2) ∈ d := by intro d; simp
  rw [hpair (bouquet_scores ms1), hpair (bouquet_scores ms2),
    mem_iff_alookup h1.2, mem_iff_alookup h2.2,
    alookup_bouquet_scores, alookup_bouquet_scores, bestEntry_perm_congr hp hnd]

theorem values_scores_nodup {ms : List RawMatch}
    (hnd : (ms.map RawMatch.dist).Nodup) :
    (((bouquet_scores ms).map Prod.snd).map Entry.score).Nodup := by
  have hWF := WFdict_bouquet_scores ms
  have hinj := List.inj_on_of_nodup_map hnd
  rw [List.map_map]
  refine List.Nodup.map_on ?_ (List.Nodup.of_map Prod.fst hWF.2)
  intro p hp q hq hsc
  have hlp : bestEntry p.1 ms = Option.some p.2 := by
    rw [← alookup_bouquet_scores, ← mem_iff_alookup hWF.2]
    simpa using hp
  have hlq : bestEntry q.1 ms = Option.some q.2 := by
    rw [← alookup_bouquet_scores, ← mem_iff_alookup hWF.2]
    simpa using hq
  obtain ⟨⟨mp, hmp, hbp, hep⟩, _⟩ := bestEntry_spec p.1 ms p.2 hlp
  obtain ⟨⟨mq, hmq, hbq, heq⟩, _⟩ := bestEntry_spec q.1 ms q.2 hlq
  have hd : mp.dist = mq.dist := by
    have : (entryOf mp).score = (entryOf mq).score := by
      rw [hep, heq]
      exact hsc
    simp only [entryOf] at this
    linarith
  have hmeq : mp = mq := hinj hmp hmq hd
  have hkeys : p.1 = q.1 := by rw [← hbp, ← hbq, hmeq]
  have hvals : p.2 = q.2 := by
    have := hlp
    rw [hkeys, hlq] at this
    injection this with h
    exact h.symm
  exact Prod.ext hkeys hvals

/-- C6 (amended): for a fixed multiset of raw matches whose distances are
pairwise distinct (no similarity ties), the ranked top-K is the same
regardless of the order in which the raw matches are supplied.  (The
counterexample shows the original claim fails when two distinct products tie,
because the stable sort then orders them by first occurrence.) -/
theorem c6_rank_perm_invariant (ms1 ms2 : List RawMatch) (k : Nat)
    (hp : List.Perm ms1 ms2) (hnd : (ms1.map RawMatch.dist).Nodup) :
    rank ms1 k = rank ms2 k := by
  have hdp := bouquet_scores_perm hp hnd
  have hvp : List.Perm ((bouquet_scores ms1).map Prod.snd)
      ((bouquet_scores ms2).map Prod.snd) := hdp.map Prod.snd
  have hs1 : List.Perm (sortByScoreDesc ((bouquet_scores ms1).map Prod.snd))
      ((bouquet_scores ms1).map Prod.snd) := List.perm_insertionSort scoreGe _
  have hs2 : List.Perm (sortByScoreDesc ((bouquet_scores ms2).map Prod.snd))
      ((bouquet_scores ms2).map Prod.snd) := List.perm_insertionSort scoreGe _
  have hsorted : sortByScoreDesc ((bouquet_scores ms1).map Prod.snd) =
      sortByScoreDesc ((bouquet_scores ms2).map Prod.snd) := by
    refine eq_of_perm_sorted_nodup_scores _ _
      ((hs1.trans hvp).trans hs2.symm)
      (List.sorted_insertionSort scoreGe _)
      (List.sorted_insertionSort scoreGe _) ?_
    exact ((hs1.map Entry.score).nodup_iff).mpr (values_scores_nodup hnd)
  unfold rank
  rw [hsorted]

/-- C6 witness for the amended theorem: the spec example's matches (distances
0.1, 0.3, 0.05, pairwise distinct) ranked after a rotation of the input give
the same output. -/
theorem c6_witness :
    List.Perm exampleMatches exampleMatchesRot ∧
      (exampleMatches.map RawMatch.dist).Nodup ∧
      rank exampleMatches 2 = rank exampleMatchesRot 2 := by
  have hp : List.Perm exampleMatches exampleMatchesRot := List.Perm.swap _ _ _
  have hnd : (exampleMatches.map RawMatch.dist).Nodup := by
    norm_num [exampleMatches, List.Nodup]
  exact ⟨hp, hnd, c6_rank_perm_invariant exampleMatches exampleMatchesRot 2 hp hnd⟩

/-! ## C3, C9, C7: filter construction and the default k -/

/-- C3: the `where` filter handed to the index is a function of which of
`document_type`, `min_price`, `max_price` are present: none present gives no
filter at all (`None`, not an empty conjunction); exactly one present gives
that single bare predicate; both price bounds give
`{$and: [{price: {$gte: min}}, {price: {$lte: max}}]}`. -/
theorem c3_filter_construction :
    (∀ index k, search_products_by_text index Option.none Option.none Option.none k =
        rank (index WhereFilter.noFilter (2 * k)) k) ∧
    whereFilterOf (textFilters Option.none Option.none Option.none) =
      WhereFilter.noFilter ∧
    (∀ t : String, t ≠ "" →
      whereFilterOf (textFilters (Option.some t) Option.none Option.none) =
        WhereFilter.single (FilterPred.typeEq t)) ∧
    (∀ p : Rat, p ≠ 0 →
      whereFilterOf (textFilters Option.none (Option.some p) Option.none) =
        WhereFilter.single (FilterPred.priceGte p)) ∧
    (∀ p : Rat, p ≠ 0 →
      whereFilterOf (textFilters Option.none Option.none (Option.some p)) =
        WhereFilter.single (FilterPred.priceLte p)) ∧
    (∀ p q : Rat, p ≠ 0 → q ≠ 0 →
      whereFilterOf (textFilters Option.none (Option.some p) (Option.some q)) =
        WhereFilter.conj [FilterPred.priceGte p, FilterPred.priceLte q]) := by
  refine ⟨fun _ _ => rfl, rfl, ?_, ?_, ?_, ?_⟩
  · intro t ht
    simp [textFilters, whereFilterOf, ht]
  · intro p hp
    simp [textFilters, whereFilterOf, hp]
  · intro p hp
    simp [textFilters, whereFilterOf, hp]
  · intro p q hp hq
    simp [textFilters, whereFilterOf, hp, hq]

/-- C3 witness: the spec's end-to-end filter example,
`min_price = 100000, max_price = 400000`. -/
theorem c3_witness :
    ((100000 : Rat) ≠ 0 ∧ (400000 : Rat) ≠ 0) ∧
      whereFilterOf (textFilters Option.none (Option.some 100000) (Option.some 400000)) =
        WhereFilter.conj [FilterPred.priceGte 100000, FilterPred.priceLte 400000] :=
  ⟨⟨by norm_num, by norm_num⟩,
    c3_filter_construction.2.2.2.2.2 100000 400000 (by norm_num) (by norm_num)⟩

/-- C9: a price bound equal to 0 is tested by Python truthiness
(`if min_price:` / `if max_price:`), so it contributes no predicate — both
search operations treat a zero bound exactly like an absent one. -/
theorem c9_zero_price_bound_ignored :
    (∀ dt mx, textFilters dt (Option.some 0) mx = textFilters dt Option.none mx) ∧
    (∀ dt mn, textFilters dt mn (Option.some 0) = textFilters dt mn Option.none) ∧
    (∀ mx, photoFilters (Option.some 0) mx = photoFilters Option.none mx) ∧
    (∀ mn, photoFilters mn (Option.some 0) = photoFilters mn Option.none) ∧
    (∀ index dt mx k, search_products_by_text index dt (Option.some 0) mx k =
        search_products_by_text index dt Option.none mx k) ∧
    (∀ index dt mn k, search_products_by_text index dt mn (Option.some 0) k =
        search_products_by_text index dt mn Option.none k) ∧
    (∀ index mx k, search_products_by_photo index (Option.some 0) mx k =
        search_products_by_photo index Option.none mx k) ∧
    (∀ index mn k, search_products_by_photo index mn (Option.some 0) k =
        search_products_by_photo index mn Option.none k) := by
  refine ⟨?_, ?_, ?_, ?_, ?_, ?_, ?_, ?_⟩ <;>
    intros <;>
    simp [textFilters, photoFilters, search_products_by_text, search_products_by_photo]

/-- Metadata of example product C. -/
def metaC : Meta := ⟨3, "C", "", 0, ""⟩

/-- Metadata of example product D. -/
def metaD : Meta := ⟨4, "D", "", 0, ""⟩

/-- Four raw matches for four distinct products. -/
def fourMatches : List RawMatch :=
  [⟨1/10, metaA⟩, ⟨2/10, metaB⟩, ⟨3/10, metaC⟩, ⟨4/10, metaD⟩]

/-- A stub index holding the four products, honouring `n_results`. -/
def fourIndex : WhereFilter → Nat → List RawMatch := fun _ n => fourMatches.take n

/-- C7: the code's default for `k` is 5, not a cap of at most 3 — `k=5` in the
`search_products_by_text` signature and `function_args.get("k", 5)` in the
agent's dispatch — so a text search issued without `k` can return 4 results,
contradicting the claimed `k ≤ 3` default cap (and the tool schema's own
description "Number of results to return (max 3)"). -/
theorem c7_default_k_is_five :
    search_default_k = 5 ∧ ¬ search_default_k ≤ 3 ∧
      (search_products_by_text fourIndex Option.none Option.none Option.none
        search_default_k).length = 4 := by
  refine ⟨rfl, by decide, ?_⟩
  norm_num [search_products_by_text, search_default_k, rank, bouquet_scores, updateScore,
    entryOf, fourIndex, fourMatches, metaA, metaB, metaC, metaD, sortByScoreDesc,
    List.insertionSort, List.orderedInsert, scoreGe, textFilters, whereFilterOf]

/-! ## Payment URL generation (src/search_tools.py `generate_payment_url`)

Python strings are modelled as character lists in this part, because
`extract_payment_url` (src/app/bot.py) runs a regular expression over them. -/

/-- A decimal digit character. -/
def digitChar : Nat → Char
  | 0 => '0'
  | 1 => '1'
  | 2 => '2'
  | 3 => '3'
  | 4 => '4'
  | 5 => '5'
  | 6 => '6'
  | 7 => '7'
  | 8 => '8'
  | _ => '9'

/-- Decimal digits of `n`, most significant first (fuel-driven; `fuel > n`
suffices). -/
def natDigitsAux : Nat → Nat → List Char
  | 0, _ => []
  | fuel + 1, n => if n < 10 then [digitChar n] else natDigitsAux fuel (n / 10) ++ [digitChar (n % 10)]

/-- Decimal representation of a natural number. -/
def natDigits (n : Nat) : List Char := natDigitsAux (n + 1) n

/-- The two digits after the decimal point. -/
def twoDigits (r : Nat) : List Char := [digitChar (r / 10 % 10), digitChar (r % 10)]

/-- Render a nonnegative number of cents as `"<units>.<dd>"`. -/
def fmtCents (c : Nat) : List Char := natDigits (c / 100) ++ '.' :: twoDigits (c % 100)

/-- `f"{price:.2f}"`: fixed-point rendering with two decimals.  The Python
float is modelled as a rational; the half-even tie break of IEEE formatting is
modelled by `round`, which no claim can distinguish. -/
def fmt2f (price : Rat) : List Char :=
  let cents : Int := round (100 * price)
  if cents < 0 then '-' :: fmtCents cents.natAbs else fmtCents cents.toNat

/-- `base_url` of `generate_payment_url`. -/
def base_url : List Char := "https://my.click.uz/services/pay/".toList

/-- Fixed `service_id` parameter. -/
def service_id : List Char := "30067".toList

/-- Fixed `merchant_id` parameter. -/
def merchant_id : List Char := "22535".toList

/-- Fixed `transaction_param` parameter. -/
def transaction_param : List Char := "165884".toList

/-- Fixed `return_url` parameter. -/
def return_url : List Char := "https://t.me/easify_seller_bot".toList

/-- `generate_payment_url(price)`: the f-string
`f"{base_url}?service_id={service_id}&merchant_id={merchant_id}&amount={amount}&transaction_param={transaction_param}&return_url={return_url}"`. -/
def generate_payment_url (price : Rat) : List Char :=
  base_url ++ "?service_id=".toList ++ service_id ++
    "&merchant_id=".toList ++ merchant_id ++
    "&amount=".toList ++ fmt2f price ++
    "&transaction_param=".toList ++ transaction_param ++
    "&return_url=".toList ++ return_url

/-! ## The agent (src/app/agent.py) -/

/-- Role of a conversation turn. -/
inductive Role where
  | user
  | assistant
  | tool
deriving DecidableEq

/-- The parsed JSON arguments of a tool call, with the fields
`_execute_tool_call` reads via `function_args.get(...)`. -/
structure FnArgs where
  query_text : Option String
  document_type : Option String
  min_price : Option Rat
  max_price : Option Rat
  k : Option Nat
  price : Option Rat
deriving DecidableEq

instance {ε α : Type} [DecidableEq ε] [DecidableEq α] : DecidableEq (Except ε α) := fun a b =>
  match a, b with
  | Except.ok x, Except.ok y =>
    if h : x = y then isTrue (by rw [h])
    else isFalse (by intro hc; injection hc with h2; exact h h2)
  | Except.error x, Except.error y =>
    if h : x = y then isTrue (by rw [h])
    else isFalse (by intro hc; injection hc with h2; exact h h2)
  | Except.ok _, Except.error _ => isFalse (by intro hc; exact Except.noConfusion hc)
  | Except.error _, Except.ok _ => isFalse (by intro hc; exact Except.noConfusion hc)

/-- A tool-call request from the completion service.  `args` is the outcome
of `json.loads(tool_call.function.arguments)`: `Except.error` models the
exception raised on malformed JSON. -/
structure ToolCall where
  id : Nat
  name : String
  args : Except String FnArgs
deriving DecidableEq

/-- One turn of the per-user conversation context
(`self.conversation_contexts[user_id]`), as built by `add_to_context`. -/
structure Turn where
  role : Role
  content : String
  tool_calls : List ToolCall
  tool_call_id : Option Nat
deriving DecidableEq

/-- `add_to_context(user_id, "user", message)`. -/
def userTurn (m : String) : Turn := ⟨Role.user, m, [], Option.none⟩

/-- `add_to_context(user_id, "assistant", content)`. -/
def assistantTurn (c : String) : Turn := ⟨Role.assistant, c, [], Option.none⟩

/-- `add_to_context(user_id, "assistant", content, tool_calls=...)`. -/
def assistantToolTurn (c : String) (tcs : List ToolCall) : Turn :=
  ⟨Role.assistant, c, tcs, Option.none⟩

/-- `add_to_context(user_id, "tool", content, tool_call_id=...)`. -/
def toolTurn (content : String) (id : Nat) : Turn :=
  ⟨Role.tool, content, [], Option.some id⟩

/-- `"No bouquets found matching the criteria."`. -/
def noResultsMsg : String := "No bouquets found matching the criteria."

/-- Separator of `"\n".join(formatted_results)`. -/
def newlineStr : String := "\n"

/-- One line of `format_search_results_for_ai`. -/
def productLine (i : Nat) (e : Entry) : String :=
  "Product " ++ toString i ++ ": " ++ e.meta.name_en ++ " | Description: " ++
    e.meta.description_en ++ " | Price: " ++ toString e.meta.price ++ " uzs | Photo: " ++
    e.meta.photo_url

/-- `format_search_results_for_ai` (src/app/agent.py): the empty result list
renders a fixed sentence, otherwise one numbered line per product. -/
def format_search_results_for_ai (results : List Entry) : String :=
  if results.isEmpty then noResultsMsg
  else String.intercalate newlineStr (results.enum.map (fun p => productLine (p.1 + 1) p.2))

/-- Tool name `"search_products_by_text"`. -/
def toolNameText : String := "search_products_by_text"

/-- Tool name `"search_products_by_photo"`. -/
def toolNamePhoto : String := "search_products_by_photo"

/-- Tool name `"generate_payment_link"`. -/
def toolNamePayment : String := "generate_payment_link"

/-- Error turn content for a failed text search. -/
def errTextSearchMsg : String := "Error: Failed to search products - "

/-- Error turn content for a failed photo search. -/
def errPhotoSearchMsg : String := "Error: Failed to search products by photo - "

/-- Error turn content when the photo tool is called without a photo. -/
def errNoPhotoMsg : String := "Error: No photo provided for photo search"

/-- Error turn content for a failed payment-link generation. -/
def errPaymentMsg : String := "Error: Failed to generate payment link - "

/-- The `TypeError` message raised by `f"{None:.2f}"` when the model omitted
the required `price` argument. -/
def priceNoneErr : String := "unsupported format string passed to NoneType.__format__"

/-- Successful payment-tool turn content:
`f"Payment link generated (Price: {price} uzs):\n{payment_url}"`. -/
def paymentResult (p : Rat) : String :=
  "Payment link generated (Price: " ++ toString p ++ " uzs):" ++ newlineStr ++
    String.mk (generate_payment_url p)

/-- Backends reached by tool dispatch.  The real functions touch the index
and the filesystem, so they are environment parameters returning
`Except.error` when the Python call would raise. -/
structure ToolEnv where
  textSearch : Option String → Option String → Option Rat → Option Rat → Nat →
    Except String (List Entry)
  photoSearch : String → Option Rat → Option Rat → Nat → Except String (List Entry)

/-- `AISellerAgent._execute_tool_call`: parse the arguments (`json.loads` is
outside every `try`, so a parse failure propagates as `Except.error`), then
dispatch on the function name.  Each recognised branch appends exactly one
tool turn — the formatted result on success, an `"Error: ..."` string when
the backend raises — and an unrecognised name falls through all branches
appending nothing. -/
def execute_tool_call (env : ToolEnv) (tc : ToolCall) (photo_path : Option String)
    (ctx : List Turn) : Except String (List Turn) :=
  match tc.args with
  | Except.error e => Except.error e
  | Except.ok a =>
    if tc.name = toolNameText then
      match env.textSearch a.query_text a.document_type a.min_price a.max_price
          (a.k.getD 5) with
      | Except.ok results =>
        Except.ok (ctx ++ [toolTurn (format_search_results_for_ai results) tc.id])
      | Except.error err =>
        Except.ok (ctx ++ [toolTurn (errTextSearchMsg ++ err) tc.id])
    else if tc.name = toolNamePhoto then
      match photo_path with
      | Option.none => Except.ok (ctx ++ [toolTurn errNoPhotoMsg tc.id])
      | Option.some p =>
        match env.photoSearch p a.min_price a.max_price (a.k.getD 5) with
        | Except.ok results =>
          Except.ok (ctx ++ [toolTurn (format_search_results_for_ai results) tc.id])
        | Except.error err =>
          Except.ok (ctx ++ [toolTurn (errPhotoSearchMsg ++ err) tc.id])
    else if tc.name = toolNamePayment then
      match a.price with
      | Option.none => Except.ok (ctx ++ [toolTurn (errPaymentMsg ++ priceNoneErr) tc.id])
      | Option.some p => Except.ok (ctx ++ [toolTurn (paymentResult p) tc.id])
    else Except.ok ctx

/-- The `for tool_call in message_response.tool_calls:` dispatch loop.  The
context is threaded like the mutated Python list; a raised dispatch aborts
the remaining calls and reports the exception alongside the context built so
far. -/
def execute_tool_calls (env : ToolEnv) (tcs : List ToolCall) (photo_path : Option String)
    (ctx : List Turn) : List Turn × Option String :=
  match tcs with
  | [] => (ctx, Option.none)
  | tc :: rest =>
    match execute_tool_call env tc photo_path ctx with
    | Except.ok ctx2 => execute_tool_calls env rest photo_path ctx2
    | Except.error e => (ctx, Option.some e)

/-- One completion-service response: plain text and/or tool-call requests
(`response.choices[0].message`).  Python `None` content and `""` are both
falsy; both are modelled by `""`. -/
structure CompletionResponse where
  content : String
  tool_calls : List ToolCall
deriving DecidableEq

/-- The environment of `process_message`: the tool backends plus the
completion service, modelled as the stream of responses to the successive
`litellm.acompletion` calls of one `process_message` invocation (the n-th
call, tools-enabled or not, receives `completions n`). -/
structure AgentEnv where
  tools : ToolEnv
  completions : Nat → CompletionResponse

/-- `message_response.content or "..."` — Python `or` picks the fallback for
falsy content. -/
def contentOr (c d : String) : String := if c = "" then d else c

/-- `max_iterations = 5  # Prevent infinite loops`. -/
def max_iterations : Nat := 5

/-- `"I've reached the maximum number of search attempts. Let me provide you
with the best results I found."`. -/
def maxIterationsMsg : String :=
  "I've reached the maximum number of search attempts. Let me provide you with the best results I found."

/-- The apology returned by the outer `except` of `process_message`. -/
def apologyMsg : String :=
  "I apologize, but I encountered an error while processing your request. Please try again."

/-- Header of the eager photo-pass context turn (`f"Tool results:\n\n{...}"`). -/
def toolResultsHeader : String := "Tool results:" ++ newlineStr ++ newlineStr

/-- The `NameError` Python would raise after a loop that never ran
(unreachable for `max_iterations = 5`; kept for a faithful total function). -/
def nameErrorMsg : String := "name message_response is not defined"

/-- Outcome of the `while iteration < max_iterations` loop: a plain-text
completion returns from inside the loop (`finished`), tool calls on every
iteration exhaust the ceiling (`exhausted`, carrying the last response,
`message_response` after the loop), or an exception aborts the turn
(`raised`).  `nextIdx` is the index of the next completion-stream slot, i.e.
the number of completion calls made so far. -/
inductive LoopOut where
  | finished (text : String) (ctx : List Turn) (nextIdx : Nat)
  | exhausted (last : CompletionResponse) (ctx : List Turn) (nextIdx : Nat)
  | raised (e : String) (ctx : List Turn) (nextIdx : Nat)
deriving DecidableEq

/-- The main loop of `process_message` (iterations remaining, next completion
index, context): call the completion service with tools; no tool calls
returns the content; otherwise append the assistant turn carrying the
requests, dispatch each (a dispatch exception aborts the turn), and loop. -/
def pm_loop (env : AgentEnv) (photo_path : Option String) :
    Nat → Nat → List Turn → LoopOut
  | 0, callIdx, ctx => LoopOut.raised nameErrorMsg ctx callIdx
  | remaining + 1, callIdx, ctx =>
    let resp := env.completions callIdx
    if resp.tool_calls.isEmpty then
      LoopOut.finished resp.content (ctx ++ [assistantTurn resp.content]) (callIdx + 1)
    else
      match execute_tool_calls env.tools resp.tool_calls photo_path
          (ctx ++ [assistantToolTurn resp.content resp.tool_calls]) with
      | (ctx3, Option.some e) => LoopOut.raised e ctx3 (callIdx + 1)
      | (ctx3, Option.none) =>
        if remaining = 0 then LoopOut.exhausted resp ctx3 (callIdx + 1)
        else pm_loop env photo_path remaining (callIdx + 1) ctx3

/-- The result of `process_message`: the returned text, the final
conversation context, the number of completion calls made with the tool
schema attached, and the number made with tools omitted. -/
structure PMResult where
  response : String
  ctx : List Turn
  toolRounds : Nat
  finalRounds : Nat
deriving DecidableEq

/-- The outer `except Exception`: append a generic apology and return it. -/
def raisedResult (ctx : List Turn) (nextIdx : Nat) : PMResult :=
  ⟨apologyMsg, ctx ++ [assistantTurn apologyMsg], nextIdx, 0⟩

/-- What `process_message` does after the loop: a finished loop returns its
text; an exhausted loop whose last response still carries tool calls appends
that assistant turn again (with the fallback content), dispatches its tool
calls again, then makes one completion call without `tools` and returns its
plain content. -/
def finishLoop (env : AgentEnv) (photo_path : Option String) (out : LoopOut) : PMResult :=
  match out with
  | LoopOut.finished text ctx nextIdx => ⟨text, ctx, nextIdx, 0⟩
  | LoopOut.raised _ ctx nextIdx => raisedResult ctx nextIdx
  | LoopOut.exhausted last ctx nextIdx =>
    if last.tool_calls.isEmpty then
      ⟨last.content, ctx ++ [assistantTurn last.content], nextIdx, 0⟩
    else
      match execute_tool_calls env.tools last.tool_calls photo_path
          (ctx ++ [assistantToolTurn (contentOr last.content maxIterationsMsg)
            last.tool_calls]) with
      | (ctx3, Option.some _) => raisedResult ctx3 nextIdx
      | (ctx3, Option.none) =>
        ⟨(env.completions nextIdx).content,
          ctx3 ++ [assistantTurn (env.completions nextIdx).content], nextIdx, 1⟩

/-- `AISellerAgent.process_message` for one user: append the user turn; with
a photo, run the eager photo search (failures and empty results fall through
to the normal path), inject its result, make one tools-enabled completion
and either return its text or dispatch its tool calls and enter the main
loop; without a photo, enter the main loop directly. -/
def process_message (env : AgentEnv) (ctx0 : List Turn) (message : String)
    (photo_path : Option String) : PMResult :=
  let ctx1 := ctx0 ++ [userTurn message]
  match photo_path with
  | Option.none =>
    finishLoop env Option.none (pm_loop env Option.none max_iterations 0 ctx1)
  | Option.some p =>
    match env.tools.photoSearch p Option.none Option.none 3 with
    | Except.error _ =>
      finishLoop env (Option.some p) (pm_loop env (Option.some p) max_iterations 0 ctx1)
    | Except.ok results =>
      if results.isEmpty then
        finishLoop env (Option.some p) (pm_loop env (Option.some p) max_iterations 0 ctx1)
      else
        let ctx2 := ctx1 ++
          [assistantTurn (toolResultsHeader ++ format_search_results_for_ai results)]
        let resp := env.completions 0
        if resp.tool_calls.isEmpty then
          ⟨resp.content, ctx2 ++ [assistantTurn resp.content], 1, 0⟩
        else
          match execute_tool_calls env.tools resp.tool_calls (Option.some p)
              (ctx2 ++ [assistantToolTurn resp.content resp.tool_calls]) with
          | (ctx4, Option.some _) => raisedResult ctx4 1
          | (ctx4, Option.none) =>
            finishLoop env (Option.some p) (pm_loop env (Option.some p) max_iterations 1 ctx4)

/-! ## Properties of tool dispatch -/

/-- The turns a dispatch round appends, independent of the starting context. -/
def dispatchTurns (env : ToolEnv) (tcs : List ToolCall) (photo_path : Option String) :
    List Turn :=
  (execute_tool_calls env tcs photo_path []).1

theorem execute_tool_call_shape (env : ToolEnv) (tc : ToolCall) (pp : Option String)
    (ctx : List Turn) :
    execute_tool_call env tc pp ctx =
      Except.map (fun ts => ctx ++ ts) (execute_tool_call env tc pp []) := by
  cases h : tc.args with
  | error e => simp [execute_tool_call, h, Except.map]
  | ok a =>
    simp only [execute_tool_call, h]
    by_cases h1 : tc.name = toolNameText
    · simp only [if_pos h1]
      cases hts : env.textSearch a.query_text a.document_type a.min_price a.max_price
        (a.k.getD 5) <;> simp [hts, Except.map]
    · simp only [if_neg h1]
      by_cases h2 : tc.name = toolNamePhoto
      · simp only [if_pos h2]
        cases pp with
        | none => simp [Except.map]
        | some p =>
          cases hps : env.photoSearch p a.min_price a.max_price (a.k.getD 5) <;>
            simp [hps, Except.map]
      · simp only [if_neg h2]
        by_cases h3 : tc.name = toolNamePayment
        · simp only [if_pos h3]
          cases hpr : a.price <;> simp [hpr, Except.map]
        · simp [if_neg h3, Except.map]

theorem execute_tool_call_isOk (env : ToolEnv) (tc : ToolCall) (pp : Option String)
    (a : FnArgs) (h : tc.args = Except.ok a) :
    ∃ ts : List Turn, execute_tool_call env tc pp [] = Except.ok ts := by
  simp only [execute_tool_call, h]
  by_cases h1 : tc.name = toolNameText
  · simp only [if_pos h1]
    cases hts : env.textSearch a.query_text a.document_type a.min_price a.max_price
      (a.k.getD 5) <;> simp [hts]
  · simp only [if_neg h1]
    by_cases h2 : tc.name = toolNamePhoto
    · simp only [if_pos h2]
      cases pp with
      | none => exact ⟨_, rfl⟩
      | some p =>
        cases hps : env.photoSearch p a.min_price a.max_price (a.k.getD 5) <;> simp [hps]
    · simp only [if_neg h2]
      by_cases h3 : tc.name = toolNamePayment
      · simp only [if_pos h3]
        cases hpr : a.price <;> simp [hpr]
      · simp [if_neg h3]

/-- A recognised tool call with parsed arguments appends exactly one tool
turn, correlated by the call's id, and never raises. -/
theorem execute_tool_call_known_ok (env : ToolEnv) (tc : ToolCall) (pp : Option String)
    (ctx : List Turn) (a : FnArgs) (hargs : tc.args = Except.ok a)
    (hname : tc.name = toolNameText ∨ tc.name = toolNamePhoto ∨ tc.name = toolNamePayment) :
    ∃ t : Turn, execute_tool_call env tc pp ctx = Except.ok (ctx ++ [t]) ∧
      t.role = Role.tool ∧ t.tool_call_id = Option.some tc.id ∧ t.tool_calls = [] := by
  have hTP : toolNameText ≠ toolNamePhoto := by decide
  have hTY : toolNameText ≠ toolNamePayment := by decide
  have hPY : toolNamePhoto ≠ toolNamePayment := by decide
  simp only [execute_tool_call, hargs]
  rcases hname with h | h | h
  · simp only [if_pos h]
    cases hts : env.textSearch a.query_text a.document_type a.min_price a.max_price
        (a.k.getD 5) with
    | ok v => simp only [hts]; exact ⟨_, rfl, rfl, rfl, rfl⟩
    | error e2 => simp only [hts]; exact ⟨_, rfl, rfl, rfl, rfl⟩
  · rw [h]
    simp only [if_neg hTP.symm, if_pos rfl]
    cases pp with
    | none => exact ⟨_, rfl, rfl, rfl, rfl⟩
    | some p =>
      cases hps : env.photoSearch p a.min_price a.max_price (a.k.getD 5) with
      | ok v => simp only [hps]; exact ⟨_, rfl, rfl, rfl, rfl⟩
      | error e2 => simp only [hps]; exact ⟨_, rfl, rfl, rfl, rfl⟩
  · rw [h]
    simp only [if_neg hTY.symm, if_neg hPY.symm, if_pos rfl]
    cases hpr : a.price with
    | none => simp only [hpr]; exact ⟨_, rfl, rfl, rfl, rfl⟩
    | some p => simp only [hpr]; exact ⟨_, rfl, rfl, rfl, rfl⟩

theorem execute_tool_call_unknown (env : ToolEnv) (tc : ToolCall) (pp : Option String)
    (ctx : List Turn) (a : FnArgs) (hargs : tc.args = Except.ok a)
    (h1 : tc.name ≠ toolNameText) (h2 : tc.name ≠ toolNamePhoto)
    (h3 : tc.name ≠ toolNamePayment) :
    execute_tool_call env tc pp ctx = Except.ok ctx := by
  simp [execute_tool_call, hargs, h1, h2, h3]

theorem execute_tool_call_badargs (env : ToolEnv) (tc : ToolCall) (pp : Option String)
    (ctx : List Turn) (e : String) (hargs : tc.args = Except.error e) :
    execute_tool_call env tc pp ctx = Except.error e := by
  simp [execute_tool_call, hargs]

/-- Dispatching a list of parse-clean tool calls never raises and appends the
context-independent turn list `dispatchTurns`. -/
theorem execute_tool_calls_ok (env : ToolEnv) (tcs : List ToolCall) (pp : Option String)
    (h : ∀ tc ∈ tcs, ∃ a, tc.args = Except.ok a) :
    ∀ ctx, execute_tool_calls env tcs pp ctx =
      (ctx ++ dispatchTurns env tcs pp, Option.none) := by
  induction tcs with
  | nil => intro ctx; simp [execute_tool_calls, dispatchTurns]
  | cons tc rest ih =>
    obtain ⟨a, ha⟩ := h tc (by simp)
    obtain ⟨ts, hts⟩ := execute_tool_call_isOk env tc pp a ha
    have hrest : ∀ tc2 ∈ rest, ∃ a2, tc2.args = Except.ok a2 :=
      fun tc2 h2 => h tc2 (by simp [h2])
    have hstep : ∀ ctx : List Turn, execute_tool_call env tc pp ctx = Except.ok (ctx ++ ts) := by
      intro ctx
      rw [execute_tool_call_shape, hts]
      rfl
    have hD : dispatchTurns env (tc :: rest) pp = ts ++ dispatchTurns env rest pp := by
      unfold dispatchTurns
      simp only [execute_tool_calls, hstep, List.nil_append]
      rw [ih hrest ts]
      simp [dispatchTurns]
    intro ctx
    simp only [execute_tool_calls, hstep]
    rw [ih hrest (ctx ++ ts), hD, List.append_assoc]

/-- When every call is recognised and parse-clean, each dispatch contributes
exactly one tool turn. -/
theorem dispatchTurns_length (env : ToolEnv) (tcs : List ToolCall) (pp : Option String)
    (hargs : ∀ tc ∈ tcs, ∃ a, tc.args = Except.ok a)
    (hname : ∀ tc ∈ tcs, tc.name = toolNameText ∨ tc.name = toolNamePhoto ∨
      tc.name = toolNamePayment) :
    (dispatchTurns env tcs pp).length = tcs.length := by
  induction tcs with
  | nil => simp [dispatchTurns, execute_tool_calls]
  | cons tc rest ih =>
    obtain ⟨a, ha⟩ := hargs tc (by simp)
    obtain ⟨t, ht, _⟩ := execute_tool_call_known_ok env tc pp [] a ha (hname tc (by simp))
    have hrest1 : ∀ tc2 ∈ rest, ∃ a2, tc2.args = Except.ok a2 :=
      fun tc2 h2 => hargs tc2 (by simp [h2])
    have hrest2 : ∀ tc2 ∈ rest, tc2.name = toolNameText ∨ tc2.name = toolNamePhoto ∨
        tc2.name = toolNamePayment := fun tc2 h2 => hname tc2 (by simp [h2])
    unfold dispatchTurns
    simp only [execute_tool_calls, ht, List.nil_append]
    rw [execute_tool_calls_ok env rest pp hrest1 [t]]
    have hlen := ih hrest1 hrest2
    simp [hlen]

/-! ## Properties of the orchestration loop -/

/-- Number of completion calls made up to a loop outcome. -/
def LoopOut.nextIdx : LoopOut → Nat
  | LoopOut.finished _ _ n => n
  | LoopOut.exhausted _ _ n => n
  | LoopOut.raised _ _ n => n

/-- One unfolding step of the loop. -/
theorem pm_loop_succ_eq (env : AgentEnv) (pp : Option String) (f callIdx : Nat)
    (ctx : List Turn) :
    pm_loop env pp (f + 1) callIdx ctx =
      if (env.completions callIdx).tool_calls.isEmpty then
        LoopOut.finished (env.completions callIdx).content
          (ctx ++ [assistantTurn (env.completions callIdx).content]) (callIdx + 1)
      else
        match execute_tool_calls env.tools (env.completions callIdx).tool_calls pp
            (ctx ++ [assistantToolTurn (env.completions callIdx).content
              (env.completions callIdx).tool_calls]) with
        | (ctx3, Option.some e) => LoopOut.raised e ctx3 (callIdx + 1)
        | (ctx3, Option.none) =>
          if f = 0 then LoopOut.exhausted (env.completions callIdx) ctx3 (callIdx + 1)
          else pm_loop env pp f (callIdx + 1) ctx3 := rfl

theorem pm_loop_nextIdx_le (env : AgentEnv) (pp : Option String) :
    ∀ fuel callIdx ctx, (pm_loop env pp fuel callIdx ctx).nextIdx ≤ callIdx + fuel := by
  intro fuel
  induction fuel with
  | zero =>
    intro callIdx ctx
    show (LoopOut.raised nameErrorMsg ctx callIdx).nextIdx ≤ callIdx + 0
    simp [LoopOut.nextIdx]
  | succ f ih =>
    intro callIdx ctx
    rw [pm_loop_succ_eq]
    by_cases he : (env.completions callIdx).tool_calls.isEmpty
    · simp [he, LoopOut.nextIdx]
    · simp only [he, Bool.false_eq_true, if_false]
      generalize execute_tool_calls env.tools (env.completions callIdx).tool_calls pp
          (ctx ++ [assistantToolTurn (env.completions callIdx).content
            (env.completions callIdx).tool_calls]) = pr
      obtain ⟨ctx3, err⟩ := pr
      cases err with
      | some e => simp [LoopOut.nextIdx]
      | none =>
        by_cases hf : f = 0
        · simp [hf, LoopOut.nextIdx]
        · simp only [if_neg hf]
          have := ih (callIdx + 1) ctx3
          omega

theorem finishLoop_toolRounds (env : AgentEnv) (pp : Option String) (out : LoopOut) :
    (finishLoop env pp out).toolRounds = out.nextIdx := by
  cases out with
  | finished text ctx n => rfl
  | raised e ctx n => rfl
  | exhausted last ctx n =>
    simp only [finishLoop, LoopOut.nextIdx]
    by_cases he : last.tool_calls.isEmpty
    · simp [he]
    · simp only [he, Bool.false_eq_true, if_false]
      cases hex : execute_tool_calls env.tools last.tool_calls pp
          (ctx ++ [assistantToolTurn (contentOr last.content maxIterationsMsg)
            last.tool_calls]) with
      | mk ctx3 err => cases err <;> simp [raisedResult]

theorem finishLoop_finalRounds_le (env : AgentEnv) (pp : Option String) (out : LoopOut) :
    (finishLoop env pp out).finalRounds ≤ 1 := by
  cases out with
  | finished text ctx n => simp [finishLoop]
  | raised e ctx n => simp [finishLoop, raisedResult]
  | exhausted last ctx n =>
    simp only [finishLoop]
    by_cases he : last.tool_calls.isEmpty
    · simp [he]
    · simp only [he, Bool.false_eq_true, if_false]
      cases hex : execute_tool_calls env.tools last.tool_calls pp
          (ctx ++ [assistantToolTurn (contentOr last.content maxIterationsMsg)
            last.tool_calls]) with
      | mk ctx3 err => cases err <;> simp [raisedResult]

/-- The turns appended by one tool-calling loop round on completion `i`: the
assistant turn carrying the requests, then one dispatch pass. -/
def roundBlock (env : AgentEnv) (pp : Option String) (i : Nat) : List Turn :=
  assistantToolTurn (env.completions i).content (env.completions i).tool_calls ::
    dispatchTurns env.tools (env.completions i).tool_calls pp

/-- The turns appended by `fuel` consecutive tool-calling rounds starting at
completion index `callIdx`. -/
def roundBlocks (env : AgentEnv) (pp : Option String) : Nat → Nat → List Turn
  | _, 0 => []
  | callIdx, fuel + 1 => roundBlock env pp callIdx ++ roundBlocks env pp (callIdx + 1) fuel

theorem roundBlocks_snoc (env : AgentEnv) (pp : Option String) :
    ∀ fuel callIdx, roundBlocks env pp callIdx (fuel + 1) =
      roundBlocks env pp callIdx fuel ++ roundBlock env pp (callIdx + fuel) := by
  intro fuel
  induction fuel with
  | zero => intro callIdx; simp [roundBlocks]
  | succ f ih =>
    intro callIdx
    show roundBlock env pp callIdx ++ roundBlocks env pp (callIdx + 1) (f + 1) = _
    rw [ih (callIdx + 1)]
    have : callIdx + 1 + f = callIdx + (f + 1) := by omega
    rw [this]
    simp [roundBlocks, List.append_assoc]

/-- When every completion in range requests tool calls and every requested
call parses, the loop burns all its fuel and exhausts with the last response,
having appended one round block per iteration. -/
theorem pm_loop_all_tools (env : AgentEnv) (pp : Option String) :
    ∀ fuel callIdx ctx, fuel ≠ 0 →
    (∀ i, callIdx ≤ i → i < callIdx + fuel → (env.completions i).tool_calls ≠ []) →
    (∀ i, callIdx ≤ i → i < callIdx + fuel → ∀ tc ∈ (env.completions i).tool_calls,
      ∃ a, tc.args = Except.ok a) →
    pm_loop env pp fuel callIdx ctx =
      LoopOut.exhausted (env.completions (callIdx + fuel - 1))
        (ctx ++ roundBlocks env pp callIdx fuel) (callIdx + fuel) := by
  intro fuel
  induction fuel with
  | zero => intro callIdx ctx h0; exact absurd rfl h0
  | succ f ih =>
    intro callIdx ctx _ htc hargs
    have hne : (env.completions callIdx).tool_calls.isEmpty = false := by
      rw [List.isEmpty_eq_false]
      exact htc callIdx (le_refl _) (by omega)
    have hok := execute_tool_calls_ok env.tools (env.completions callIdx).tool_calls pp
      (hargs callIdx (le_refl _) (by omega))
    rw [pm_loop_succ_eq]
    simp only [hne, Bool.false_eq_true, if_false]
    rw [hok]
    cases f with
    | zero =>
      simp [roundBlocks, roundBlock, List.append_assoc]
    | succ g =>
      have ihg := ih (callIdx + 1)
        (ctx ++ [assistantToolTurn (env.completions callIdx).content
          (env.completions callIdx).tool_calls] ++
          dispatchTurns env.tools (env.completions callIdx).tool_calls pp)
        (by omega)
        (fun i h1 h2 => htc i (by omega) (by omega))
        (fun i h1 h2 => hargs i (by omega) (by omega))
      simp only [Nat.succ_ne_zero, if_false]
      rw [ihg]
      have h1 : callIdx + 1 + (g + 1) - 1 = callIdx + (g + 1 + 1) - 1 := by omega
      have h2 : callIdx + 1 + (g + 1) = callIdx + (g + 1 + 1) := by omega
      rw [h1, h2]
      simp [roundBlocks, roundBlock, List.append_assoc]

/-- When the completion service requests tool calls on all `max_iterations`
loop rounds and every call parses, `process_message` (no photo) re-appends
the last assistant tool-call turn, re-dispatches its calls, issues one final
completion without tools, and returns that completion's content. -/
theorem process_message_all_tools (env : AgentEnv) (ctx0 : List Turn) (msg : String)
    (htc : ∀ i, i < max_iterations → (env.completions i).tool_calls ≠ [])
    (hargs : ∀ i, i < max_iterations → ∀ tc ∈ (env.completions i).tool_calls,
      ∃ a, tc.args = Except.ok a) :
    process_message env ctx0 msg Option.none =
      ⟨(env.completions max_iterations).content,
        ((ctx0 ++ [userTurn msg]) ++ roundBlocks env Option.none 0 max_iterations) ++
          (assistantToolTurn
              (contentOr (env.completions (max_iterations - 1)).content maxIterationsMsg)
              (env.completions (max_iterations - 1)).tool_calls ::
            dispatchTurns env.tools (env.completions (max_iterations - 1)).tool_calls
              Option.none) ++
          [assistantTurn (env.completions max_iterations).content],
        max_iterations, 1⟩ := by
  have hloop := pm_loop_all_tools env Option.none max_iterations 0 (ctx0 ++ [userTurn msg])
    (by decide)
    (fun i h1 h2 => htc i (by omega))
    (fun i h1 h2 => hargs i (by omega))
  have hlast : (env.completions (0 + max_iterations - 1)).tool_calls.isEmpty = false := by
    rw [List.isEmpty_eq_false]
    exact htc (0 + max_iterations - 1) (by decide)
  have hok := execute_tool_calls_ok env.tools
    (env.completions (0 + max_iterations - 1)).tool_calls Option.none
    (hargs (0 + max_iterations - 1) (by decide))
  simp only [process_message]
  rw [hloop]
  simp only [finishLoop, hlast, Bool.false_eq_true, if_false]
  rw [hok]
  simp [List.append_assoc]

/-! ## C4: the tool-dispatch boundary -/

/-- A tool environment whose backends always succeed with no results. -/
def stubToolEnv : ToolEnv :=
  ⟨fun _ _ _ _ _ => Except.ok [], fun _ _ _ _ => Except.ok []⟩

/-- Parsed arguments with every optional field absent. -/
def emptyArgs : FnArgs :=
  ⟨Option.none, Option.none, Option.none, Option.none, Option.none, Option.none⟩

/-- A tool name matching none of the three registered tools. -/
def unknownToolName : String := "search_products_by_color"

/-- A tool call with an unrecognised name and well-formed arguments. -/
def unknownNameCall : ToolCall := ⟨7, unknownToolName, Except.ok emptyArgs⟩

/-- The `json.JSONDecodeError` message for empty argument text. -/
def badJsonMsg : String := "Expecting value: line 1 column 1 (char 0)"

/-- A text-search tool call whose argument string fails to parse. -/
def badArgsCall : ToolCall := ⟨8, toolNameText, Except.error badJsonMsg⟩

/-- C4 counterexample: a dispatch does NOT always append exactly one tool
turn, and exceptions CAN escape the dispatch boundary — an unrecognised tool
name falls through every branch appending nothing, and
`json.loads(tool_call.function.arguments)` sits outside every `try`, so a
malformed argument string raises out of `_execute_tool_call`. -/
theorem c4_counterexample :
    execute_tool_call stubToolEnv unknownNameCall Option.none [] = Except.ok [] ∧
      execute_tool_call stubToolEnv badArgsCall Option.none [] =
        Except.error badJsonMsg := by
  constructor
  · have h1 : unknownToolName ≠ toolNameText := by decide
    have h2 : unknownToolName ≠ toolNamePhoto := by decide
    have h3 : unknownToolName ≠ toolNamePayment := by decide
    exact execute_tool_call_unknown stubToolEnv unknownNameCall Option.none [] emptyArgs
      rfl h1 h2 h3
  · exact execute_tool_call_badargs stubToolEnv badArgsCall Option.none [] badJsonMsg rfl

/-- C4 (amended): for every tool call whose arguments parse as JSON and whose
name is one of the three registered tools, dispatch appends exactly one
tool-role turn correlated by the call's id and never raises — the formatted
result on success, an `"Error: ..."` string when the backend raises (shown
for the text-search tool).  A call with an unrecognised name appends no turn
(still without raising), and a call whose arguments fail to parse propagates
the parse exception past the dispatch boundary. -/
theorem c4_dispatch_boundary :
    (∀ env tc pp ctx a, tc.args = Except.ok a →
      (tc.name = toolNameText ∨ tc.name = toolNamePhoto ∨ tc.name = toolNamePayment) →
      ∃ t : Turn, execute_tool_call env tc pp ctx = Except.ok (ctx ++ [t]) ∧
        t.role = Role.tool ∧ t.tool_call_id = Option.some tc.id) ∧
    (∀ env tc pp ctx a err, tc.args = Except.ok a → tc.name = toolNameText →
      env.textSearch a.query_text a.document_type a.min_price a.max_price (a.k.getD 5) =
        Except.error err →
      execute_tool_call env tc pp ctx =
        Except.ok (ctx ++ [toolTurn (errTextSearchMsg ++ err) tc.id])) ∧
    (∀ env tc pp ctx a, tc.args = Except.ok a → tc.name ≠ toolNameText →
      tc.name ≠ toolNamePhoto → tc.name ≠ toolNamePayment →
      execute_tool_call env tc pp ctx = Except.ok ctx) ∧
    (∀ env tc pp ctx e, tc.args = Except.error e →
      execute_tool_call env tc pp ctx = Except.error e) := by
  refine ⟨?_, ?_, ?_, ?_⟩
  · intro env tc pp ctx a hargs hname
    obtain ⟨t, ht, h1, h2, _⟩ := execute_tool_call_known_ok env tc pp ctx a hargs hname
    exact ⟨t, ht, h1, h2⟩
  · intro env tc pp ctx a err hargs hname herr
    simp [execute_tool_call, hargs, hname, herr]
  · intro env tc pp ctx a hargs h1 h2 h3
    exact execute_tool_call_unknown env tc pp ctx a hargs h1 h2 h3
  · intro env tc pp ctx e hargs
    exact execute_tool_call_badargs env tc pp ctx e hargs

/-- The exception message of a stubbed failing search backend. -/
def boomMsg : String := "index unavailable"

/-- A tool environment whose backends always raise. -/
def failToolEnv : ToolEnv :=
  ⟨fun _ _ _ _ _ => Except.error boomMsg, fun _ _ _ _ => Except.error boomMsg⟩

/-- A well-formed text-search tool call. -/
def textToolCall : ToolCall := ⟨1, toolNameText, Except.ok emptyArgs⟩

/-- C4 witness: a concrete failing text search is absorbed into exactly one
`"Error: ..."` tool turn, nothing raised. -/
theorem c4_witness :
    execute_tool_call failToolEnv textToolCall Option.none [] =
      Except.ok ([] ++ [toolTurn (errTextSearchMsg ++ boomMsg) 1]) :=
  c4_dispatch_boundary.2.1 failToolEnv textToolCall Option.none [] emptyArgs boomMsg
    rfl rfl rfl

/-! ## C2: the iteration ceiling -/

/-- Equation: without a photo, `process_message` is the main loop followed by
the after-loop handling. -/
theorem process_message_none_eq (env : AgentEnv) (ctx0 : List Turn) (msg : String) :
    process_message env ctx0 msg Option.none =
      finishLoop env Option.none
        (pm_loop env Option.none max_iterations 0 (ctx0 ++ [userTurn msg])) := rfl

/-- A photo path for the concrete runs. -/
def photoPathP : String := "photo.jpg"

/-- A user message for the concrete runs. -/
def msgHi : String := "hi"

/-- A tool environment whose photo search always finds product A. -/
def c2ToolEnv : ToolEnv :=
  ⟨fun _ _ _ _ _ => Except.ok [], fun _ _ _ _ => Except.ok [⟨1, metaA⟩]⟩

/-- A completion response that always requests one text-search tool call. -/
def c2Call : ToolCall := ⟨1, toolNameText, Except.ok emptyArgs⟩

/-- An agent environment whose completion service always requests a tool
call. -/
def c2Env : AgentEnv := ⟨c2ToolEnv, fun _ => ⟨"", [c2Call]⟩⟩

/-- C2 counterexample: with a photo attached the eager photo pass makes its
own tools-enabled completion before the loop, so a run exists with
`max_iterations + 1 = 6` tool-calling completion rounds — more than the
claimed ceiling of `max_iterations`. -/
theorem c2_counterexample :
    max_iterations < (process_message c2Env [] msgHi (Option.some photoPathP)).toolRounds := by
  have h : (process_message c2Env [] msgHi (Option.some photoPathP)).toolRounds = 6 := rfl
  rw [h]
  decide

/-- C2 (amended): `process_message` makes at most `max_iterations` (= 5)
tool-enabled completion rounds when no photo is attached and at most
`max_iterations + 1` when the eager photo pass precedes the loop; it makes at
most one completion with tools omitted; and whenever every loop round
requests parse-clean tool calls, the ceiling is reached, one final completion
without tools is issued, and its plain-text content is what `process_message`
returns. -/
theorem c2_bounded_rounds (env : AgentEnv) (ctx0 : List Turn) (msg : String)
    (pp : Option String) :
    (process_message env ctx0 msg pp).toolRounds ≤ max_iterations + 1 ∧
    (pp = Option.none → (process_message env ctx0 msg pp).toolRounds ≤ max_iterations) ∧
    (process_message env ctx0 msg pp).finalRounds ≤ 1 ∧
    (pp = Option.none →
      (∀ i, i < max_iterations → (env.completions i).tool_calls ≠ []) →
      (∀ i, i < max_iterations → ∀ tc ∈ (env.completions i).tool_calls,
        ∃ a, tc.args = Except.ok a) →
      (process_message env ctx0 msg pp).finalRounds = 1 ∧
        (process_message env ctx0 msg pp).response = (env.completions max_iterations).content) := by
  cases pp with
  | none =>
    have hb := pm_loop_nextIdx_le env Option.none max_iterations 0 (ctx0 ++ [userTurn msg])
    refine ⟨?_, fun _ => ?_, ?_, ?_⟩
    · rw [process_message_none_eq, finishLoop_toolRounds]
      omega
    · rw [process_message_none_eq, finishLoop_toolRounds]
      omega
    · rw [process_message_none_eq]
      exact finishLoop_finalRounds_le _ _ _
    · intro _ htc hargs
      rw [process_message_all_tools env ctx0 msg htc hargs]
      exact ⟨rfl, rfl⟩
  | some p =>
    simp only [process_message]
    cases hps : env.tools.photoSearch p Option.none Option.none 3 with
    | error e =>
      simp only [hps]
      have hb := pm_loop_nextIdx_le env (Option.some p) max_iterations 0 (ctx0 ++ [userTurn msg])
      refine ⟨?_, fun hc => absurd hc (by simp), ?_, fun hc => absurd hc (by simp)⟩
      · rw [finishLoop_toolRounds]
        omega
      · exact finishLoop_finalRounds_le _ _ _
    | ok results =>
      simp only [hps]
      by_cases hre : results.isEmpty
      · simp only [hre, if_true]
        have hb := pm_loop_nextIdx_le env (Option.some p) max_iterations 0 (ctx0 ++ [userTurn msg])
        refine ⟨?_, fun hc => absurd hc (by simp), ?_, fun hc => absurd hc (by simp)⟩
        · rw [finishLoop_toolRounds]
          omega
        · exact finishLoop_finalRounds_le _ _ _
      · simp only [hre, Bool.false_eq_true, if_false]
        by_cases hrc : (env.completions 0).tool_calls.isEmpty
        · simp only [hrc, if_true]
          exact ⟨by simp [max_iterations], fun hc => absurd hc (by simp), by simp,
            fun hc => absurd hc (by simp)⟩
        · simp only [hrc, Bool.false_eq_true, if_false]
          generalize execute_tool_calls env.tools (env.completions 0).tool_calls (Option.some p)
            (ctx0 ++ [userTurn msg] ++
              [assistantTurn (toolResultsHeader ++ format_search_results_for_ai results)] ++
              [assistantToolTurn (env.completions 0).content (env.completions 0).tool_calls]) = pr
          obtain ⟨ctx4, err⟩ := pr
          cases err with
          | some e =>
            exact ⟨by simp [raisedResult, max_iterations], fun hc => absurd hc (by simp),
              by simp [raisedResult], fun hc => absurd hc (by simp)⟩
          | none =>
            have hb := pm_loop_nextIdx_le env (Option.some p) max_iterations 1 ctx4
            refine ⟨?_, fun hc => absurd hc (by simp), ?_, fun hc => absurd hc (by simp)⟩
            · rw [finishLoop_toolRounds]
              omega
            · exact finishLoop_finalRounds_le _ _ _

/-- C2 witness: a concrete no-photo run whose completion service always
requests a parse-clean tool call makes its one forced no-tools completion and
returns its content. -/
theorem c2_witness :
    (process_message c2Env [] msgHi Option.none).finalRounds = 1 ∧
      (process_message c2Env [] msgHi Option.none).response =
        (c2Env.completions max_iterations).content :=
  (c2_bounded_rounds c2Env [] msgHi Option.none).2.2.2 rfl
    (fun i _ => by simp [c2Env])
    (fun i _ tc htc => ⟨emptyArgs, by
      simp only [c2Env, List.mem_singleton] at htc
      simp [htc, c2Call]⟩)

/-! ## C8: the doubled final round -/

/-- C8: when the ceiling is reached while the model still requests (parse-
clean) tool calls, `process_message` appends the assistant turn carrying the
final round's tool calls a second time (with the fallback content) and
dispatches each of those calls a second time — the final round's block
appears once inside the loop's blocks and once again after them — before the
final no-tools completion whose content is returned; with recognised names
each dispatch pass contributes exactly one tool turn per call. -/
theorem c8_double_append_and_dispatch (env : AgentEnv) (ctx0 : List Turn) (msg : String)
    (htc : ∀ i, i < max_iterations → (env.completions i).tool_calls ≠ [])
    (hargs : ∀ i, i < max_iterations → ∀ tc ∈ (env.completions i).tool_calls,
      ∃ a, tc.args = Except.ok a) :
    process_message env ctx0 msg Option.none =
      ⟨(env.completions max_iterations).content,
        ((ctx0 ++ [userTurn msg]) ++ roundBlocks env Option.none 0 max_iterations) ++
          (assistantToolTurn
              (contentOr (env.completions (max_iterations - 1)).content maxIterationsMsg)
              (env.completions (max_iterations - 1)).tool_calls ::
            dispatchTurns env.tools (env.completions (max_iterations - 1)).tool_calls
              Option.none) ++
          [assistantTurn (env.completions max_iterations).content],
        max_iterations, 1⟩ ∧
    roundBlocks env Option.none 0 max_iterations =
      roundBlocks env Option.none 0 (max_iterations - 1) ++
        (assistantToolTurn (env.completions (max_iterations - 1)).content
            (env.completions (max_iterations - 1)).tool_calls ::
          dispatchTurns env.tools (env.completions (max_iterations - 1)).tool_calls
            Option.none) ∧
    ((∀ tc ∈ (env.completions (max_iterations - 1)).tool_calls,
        tc.name = toolNameText ∨ tc.name = toolNamePhoto ∨ tc.name = toolNamePayment) →
      (dispatchTurns env.tools (env.completions (max_iterations - 1)).tool_calls
          Option.none).length =
        (env.completions (max_iterations - 1)).tool_calls.length) := by
  refine ⟨process_message_all_tools env ctx0 msg htc hargs, ?_, ?_⟩
  · simpa [max_iterations, roundBlock] using roundBlocks_snoc env Option.none 4 0
  · intro hname
    exact dispatchTurns_length env.tools _ Option.none
      (hargs (max_iterations - 1) (by decide)) hname

/-- A tool environment for the C8 witness run. -/
def c8ToolEnv : ToolEnv :=
  ⟨fun _ _ _ _ _ => Except.ok [], fun _ _ _ _ => Except.ok []⟩

/-- The tool call every response of the C8 witness run requests. -/
def c8Call : ToolCall := ⟨2, toolNameText, Except.ok emptyArgs⟩

/-- The agent environment of the C8 witness run. -/
def c8Env : AgentEnv := ⟨c8ToolEnv, fun _ => ⟨"", [c8Call]⟩⟩

/-- C8 witness: the doubled final round on a concrete always-tool-calling
run. -/
theorem c8_witness :
    process_message c8Env [] msgHi Option.none =
      ⟨(c8Env.completions max_iterations).content,
        (([] ++ [userTurn msgHi]) ++ roundBlocks c8Env Option.none 0 max_iterations) ++
          (assistantToolTurn
              (contentOr (c8Env.completions (max_iterations - 1)).content maxIterationsMsg)
              (c8Env.completions (max_iterations - 1)).tool_calls ::
            dispatchTurns c8Env.tools (c8Env.completions (max_iterations - 1)).tool_calls
              Option.none) ++
          [assistantTurn (c8Env.completions max_iterations).content],
        max_iterations, 1⟩ :=
  (c8_double_append_and_dispatch c8Env [] msgHi
    (fun i _ => by simp [c8Env])
    (fun i _ tc htc => ⟨emptyArgs, by
      simp only [c8Env, List.mem_singleton] at htc
      simp [htc, c8Call]⟩)).1

/-! ## The re-engagement scheduler (src/app/bot.py)

Per-user engagement state and its transitions.  Timestamps (`time.time()`)
are rationals.  An armed `send_followup` task is a concurrently scheduled
coroutine: its post-sleep body is modelled as a `fire` event that may occur
even after `task.cancel()` (cooperative cancellation of an in-flight timer
can lose the race, which is why the code re-checks the timestamps), so
`pending` bookkeeping never gates a fire — the in-body guards are what the
claims are about. -/

/-- What `send_followup` observed from `agent.process_message` when a fire
goes through its guards: non-empty generated text (sent), falsy text (warn,
nothing sent), or an exception (fallback phrase sent). -/
inductive FireOutcome where
  | generated
  | emptyMsg
  | genFailed
deriving DecidableEq

/-- Per-user engagement state: `last_message_time`, `last_bot_response_time`,
the pending follow-up task names, the `sent_followups` set, and the log of
follow-up messages actually sent (by trigger name, in order). -/
structure EngState where
  last_message_time : Option Rat
  last_bot_response_time : Option Rat
  pending : List String
  sent_followups : List String
  outbox : List String
deriving DecidableEq

/-- `TelegramBot.update_user_activity`: record the inbound timestamp, cancel
every pending follow-up task, clear the sent set. -/
def update_user_activity (t : Rat) (s : EngState) : EngState :=
  { s with last_message_time := Option.some t, pending := [], sent_followups := [] }

/-- `TelegramBot.update_bot_response_time`. -/
def update_bot_response_time (t : Rat) (s : EngState) : EngState :=
  { s with last_bot_response_time := Option.some t }

/-- The three named triggers armed by `schedule_followups` (delays 20 s,
300 s, 18000 s). -/
def followup_names : List String := ["first", "second", "third"]

/-- `TelegramBot.schedule_followups`: arm each named trigger unless a task
with that name is already pending. -/
def schedule_followups (s : EngState) : EngState :=
  { s with pending :=
      followup_names.foldl (fun p n => if n ∈ p then p else p ++ [n]) s.pending }

/-- The post-sleep body of `TelegramBot.send_followup` firing for trigger
`name`: the task completes (leaves `pending`); if the user's last message is
newer than the bot's last response, discard silently; if the name is already
in `sent_followups`, discard; otherwise mark it sent and deliver (the
generated text, or the static fallback when generation raised — only the
falsy-text path sends nothing, and it still marks the name as sent). -/
def send_followup (name : String) (outcome : FireOutcome) (s : EngState) : EngState :=
  let s1 : EngState := { s with pending := s.pending.erase name }
  let userReplied : Bool :=
    match s1.last_bot_response_time with
    | Option.none => false
    | Option.some bt =>
      match s1.last_message_time with
      | Option.none => false
      | Option.some mt => decide (bt < mt)
  if userReplied then s1
  else if name ∈ s1.sent_followups then s1
  else
    let s2 : EngState := { s1 with sent_followups := s1.sent_followups ++ [name] }
    match outcome with
    | FireOutcome.generated => { s2 with outbox := s2.outbox ++ [name] }
    | FireOutcome.emptyMsg => s2
    | FireOutcome.genFailed => { s2 with outbox := s2.outbox ++ [name] }

/-- Events observable on one user's engagement state: an inbound user event
(handler start), an outbound bot response (handler end:
`update_bot_response_time` then `schedule_followups`), or a follow-up timer
firing. -/
inductive EngEvent where
  | inbound (t : Rat)
  | outbound (t : Rat)
  | fire (name : String) (outcome : FireOutcome)

/-- One event step. -/
def engStep (s : EngState) : EngEvent → EngState
  | EngEvent.inbound t => update_user_activity t s
  | EngEvent.outbound t => schedule_followups (update_bot_response_time t s)
  | EngEvent.fire n o => send_followup n o s

/-- Run a list of events left to right. -/
def engRun (s : EngState) (es : List EngEvent) : EngState := es.foldl engStep s

theorem send_followup_guarded (name : String) (o : FireOutcome) (s : EngState)
    (bt mt : Rat) (hbt : s.last_bot_response_time = Option.some bt)
    (hmt : s.last_message_time = Option.some mt) (hlt : bt < mt) :
    send_followup name o s = { s with pending := s.pending.erase name } := by
  simp [send_followup, hbt, hmt, hlt]

theorem send_followup_already_sent (name : String) (o : FireOutcome) (s : EngState)
    (hs : name ∈ s.sent_followups) :
    (send_followup name o s).outbox = s.outbox := by
  unfold send_followup
  by_cases hu : (match s.last_bot_response_time with
    | Option.none => false
    | Option.some bt =>
      match s.last_message_time with
      | Option.none => false
      | Option.some mt => decide (bt < mt)) = true
  · simp [hu]
  · simp [hu, hs]

/-- Every possible effect of a fire on the sent set and the outbox: either a
guard discarded it (both unchanged), or the name was not yet sent, gets
marked, and at most one message goes out. -/
theorem send_followup_spec (name : String) (o : FireOutcome) (s : EngState) :
    ((send_followup name o s).outbox = s.outbox ∧
      (send_followup name o s).sent_followups = s.sent_followups) ∨
    (name ∉ s.sent_followups ∧
      (send_followup name o s).sent_followups = s.sent_followups ++ [name] ∧
      ((send_followup name o s).outbox = s.outbox ∨
        (send_followup name o s).outbox = s.outbox ++ [name])) := by
  unfold send_followup
  by_cases hu : (match s.last_bot_response_time with
    | Option.none => false
    | Option.some bt =>
      match s.last_message_time with
      | Option.none => false
      | Option.some mt => decide (bt < mt)) = true
  · left
    simp [hu]
  · by_cases hs : name ∈ s.sent_followups
    · left
      simp [hu, hs]
    · right
      refine ⟨hs, ?_, ?_⟩
      · cases o <;> simp [hu, hs]
      · cases o <;> simp [hu, hs]

theorem fires_no_send (bt mt : Rat) (hlt : bt < mt) :
    ∀ (fires : List (String × FireOutcome)) (s : EngState),
      s.last_bot_response_time = Option.some bt →
      s.last_message_time = Option.some mt →
      (engRun s (fires.map (fun pr => EngEvent.fire pr.1 pr.2))).outbox = s.outbox := by
  intro fires
  induction fires with
  | nil => intro s _ _; rfl
  | cons pr rest ih =>
    intro s hbt hmt
    have hstep : engStep s (EngEvent.fire pr.1 pr.2) =
        { s with pending := s.pending.erase pr.1 } :=
      send_followup_guarded pr.1 pr.2 s bt mt hbt hmt hlt
    simp only [List.map_cons, engRun, List.foldl_cons, hstep]
    exact ih _ (by simp [hbt]) (by simp [hmt])

theorem engStep_fire (s : EngState) (n : String) (o : FireOutcome) :
    engStep s (EngEvent.fire n o) = send_followup n o s := rfl

theorem engStep_outbound (s : EngState) (t : Rat) :
    engStep s (EngEvent.outbound t) =
      schedule_followups (update_bot_response_time t s) := rfl

/-- The at-most-once invariant for one trigger name over inbound-free
events. -/
theorem count_invariant (name : String) (s0count : Nat) :
    ∀ (es : List EngEvent) (s : EngState),
      (∀ t : Rat, EngEvent.inbound t ∉ es) →
      (s.outbox.count name = s0count + 1 → name ∈ s.sent_followups) →
      s0count ≤ s.outbox.count name →
      s.outbox.count name ≤ s0count + 1 →
      (engRun s es).outbox.count name ≤ s0count + 1 := by
  intro es
  induction es with
  | nil => intro s _ _ _ h; exact h
  | cons e rest ih =>
    intro s hni hsent hlo hhi
    have hni2 : ∀ t : Rat, EngEvent.inbound t ∉ rest := by
      intro t ht
      exact hni t (List.mem_cons_of_mem _ ht)
    show (engRun (engStep s e) rest).outbox.count name ≤ s0count + 1
    cases e with
    | inbound t => exact absurd (by simp) (hni t)
    | outbound t =>
      rw [engStep_outbound]
      exact ih (schedule_followups (update_bot_response_time t s)) hni2
        (by simpa [schedule_followups, update_bot_response_time] using hsent)
        (by simpa [schedule_followups, update_bot_response_time] using hlo)
        (by simpa [schedule_followups, update_bot_response_time] using hhi)
    | fire n o =>
      rw [engStep_fire]
      rcases send_followup_spec n o s with ⟨ho, hse⟩ | ⟨hns, hse, ho⟩
      · exact ih _ hni2 (by rw [ho, hse]; exact hsent)
          (by rw [ho]; exact hlo) (by rw [ho]; exact hhi)
      · by_cases hn : n = name
        · subst hn
          have hcount : s.outbox.count n = s0count := by
            by_cases hc : s.outbox.count n = s0count + 1
            · exact absurd (hsent hc) hns
            · omega
          rcases ho with ho | ho
          · exact ih _ hni2
              (by rw [ho]; intro hc; omega)
              (by rw [ho]; exact hlo)
              (by rw [ho]; exact hhi)
          · refine ih _ hni2 ?_ ?_ ?_
            · intro _
              rw [hse]
              simp
            · rw [ho]
              simp only [List.count_append]
              omega
            · rw [ho]
              simp only [List.count_append, hcount]
              have h1 : List.count n [n] = 1 := by simp
              omega
        · have hco : (send_followup n o s).outbox.count name = s.outbox.count name := by
            rcases ho with ho | ho
            · rw [ho]
            · rw [ho, List.count_append]
              have h1 : List.count name [n] = 0 := by
                simp [List.count_singleton]
                exact fun hc => hn hc
              omega
          refine ih _ hni2 ?_ ?_ ?_
          · intro hc
            rw [hco] at hc
            rw [hse]
            exact List.mem_append_left _ (hsent hc)
          · rw [hco]
            exact hlo
          · rw [hco]
            exact hhi

/-- C5: (1) arming the three triggers (an outbound response at time `tb`)
and then processing an inbound event at a later time `ti` before any trigger
fires means every later fire — even one that races past cancellation — is
discarded by the timestamp guard: zero re-engagement messages go out for
that idle period.  (2) Over any inbound-free stretch, each named trigger
sends at most one message no matter how often it is armed or fired.  (3) A
fired trigger is discarded silently whenever the last-inbound timestamp
exceeds the last-outbound timestamp, or (4) its name is already in the fired
set. -/
theorem c5_idle_trigger_suppression :
    (∀ (s0 : EngState) (tb ti : Rat) (fires : List (String × FireOutcome)), tb < ti →
      (engRun (engRun s0 [EngEvent.outbound tb, EngEvent.inbound ti])
          (fires.map (fun pr => EngEvent.fire pr.1 pr.2))).outbox =
        (engRun s0 [EngEvent.outbound tb, EngEvent.inbound ti]).outbox) ∧
    (∀ (name : String) (es : List EngEvent) (s0 : EngState),
      (∀ t : Rat, EngEvent.inbound t ∉ es) →
      (engRun s0 es).outbox.count name ≤ s0.outbox.count name + 1) ∧
    (∀ (name : String) (o : FireOutcome) (s : EngState) (bt mt : Rat),
      s.last_bot_response_time = Option.some bt → s.last_message_time = Option.some mt →
      bt < mt → (send_followup name o s).outbox = s.outbox) ∧
    (∀ (name : String) (o : FireOutcome) (s : EngState),
      name ∈ s.sent_followups → (send_followup name o s).outbox = s.outbox) := by
  refine ⟨?_, ?_, ?_, ?_⟩
  · intro s0 tb ti fires hlt
    refine fires_no_send tb ti hlt fires _ ?_ ?_ <;>
      simp [engRun, engStep, update_user_activity, update_bot_response_time,
        schedule_followups]
  · intro name es s0 hni
    refine count_invariant name (s0.outbox.count name) es s0 hni ?_ (le_refl _) (by omega)
    intro hc
    omega
  · intro name o s bt mt hbt hmt hlt
    rw [send_followup_guarded name o s bt mt hbt hmt hlt]
  · intro name o s hs
    exact send_followup_already_sent name o s hs

/-- The initial engagement state of a fresh user. -/
def freshEng : EngState := ⟨Option.none, Option.none, [], [], []⟩

/-- The name of the first follow-up trigger. -/
def firstName : String := "first"

/-- C5 witness: on a fresh user, a bot response at time 0 followed by an
inbound reply at time 1 suppresses a subsequent (racing) fire of every
trigger: the outbox stays as it was. -/
theorem c5_witness :
    (0 : Rat) < 1 ∧
      (engRun (engRun freshEng [EngEvent.outbound 0, EngEvent.inbound 1])
          ([(firstName, FireOutcome.generated), (firstName, FireOutcome.generated)].map
            (fun pr => EngEvent.fire pr.1 pr.2))).outbox =
        (engRun freshEng [EngEvent.outbound 0, EngEvent.inbound 1]).outbox :=
  ⟨by norm_num,
    c5_idle_trigger_suppression.1 freshEng 0 1
      [(firstName, FireOutcome.generated), (firstName, FireOutcome.generated)]
      (by norm_num)⟩

/-! ## C10: `extract_payment_url` (src/app/bot.py) round-trips the generated
payment URL

The pattern
`https://my\.click\.uz/services/pay/\?service_id=\d+&merchant_id=\d+&amount=[\d.]+&transaction_param=[a-f0-9\-]+&return_url=https://t\.me/[a-zA-Z0-9_]+`
is embedded directly: a chain of literal segments and greedy character-class
runs.  Greedy matching needs no backtracking here because no character class
contains `&`, the first character of the literal that follows it, so a
greedy run is exactly the maximal munch. -/

/-- `\d`. -/
def isUrlDigit (c : Char) : Bool := c.isDigit

/-- `[\d.]`. -/
def isAmountChar (c : Char) : Bool := c.isDigit || c == '.'

/-- `[a-f0-9\-]`. -/
def isParamChar (c : Char) : Bool :=
  c.isDigit || (decide ('a' ≤ c) && decide (c ≤ 'f')) || c == '-'

/-- `[a-zA-Z0-9_]`. -/
def isBotChar (c : Char) : Bool := c.isAlphanum || c == '_'

/-- Match a literal pattern segment, returning the remaining input. -/
def matchLit : List Char → List Char → Option (List Char)
  | [], s => Option.some s
  | _ :: _, [] => Option.none
  | c :: l, x :: s => if x = c then matchLit l s else Option.none

/-- Maximal run of class characters (greedy `+` without the nonemptiness
check). -/
def takeClass (good : Char → Bool) : List Char → List Char × List Char
  | [] => ([], [])
  | c :: s =>
    if good c then
      let pr := takeClass good s
      (c :: pr.1, pr.2)
    else ([], c :: s)

/-- Greedy `+`: at least one class character. -/
def matchClass1 (good : Char → Bool) (s : List Char) :
    Option (List Char × List Char) :=
  match takeClass good s with
  | ([], _) => Option.none
  | (r, rest) => Option.some (r, rest)

/-- Literal segment `https://my\.click\.uz/services/pay/\?service_id=`. -/
def payLit1 : List Char := "https://my.click.uz/services/pay/?service_id=".toList

/-- Literal segment `&merchant_id=`. -/
def payLit2 : List Char := "&merchant_id=".toList

/-- Literal segment `&amount=`. -/
def payLit3 : List Char := "&amount=".toList

/-- Literal segment `&transaction_param=`. -/
def payLit4 : List Char := "&transaction_param=".toList

/-- Literal segment `&return_url=https://t\.me/`. -/
def payLit5 : List Char := "&return_url=https://t.me/".toList

/-- Attempt the payment pattern at the start of the input, returning the
matched text (`match.group(0)`). -/
def matchPaymentAt (s : List Char) : Option (List Char) := do
  let s1 ← matchLit payLit1 s
  let (d1, s2) ← matchClass1 isUrlDigit s1
  let s3 ← matchLit payLit2 s2
  let (d2, s4) ← matchClass1 isUrlDigit s3
  let s5 ← matchLit payLit3 s4
  let (am, s6) ← matchClass1 isAmountChar s5
  let s7 ← matchLit payLit4 s6
  let (tp, s8) ← matchClass1 isParamChar s7
  let s9 ← matchLit payLit5 s8
  let (bn, _) ← matchClass1 isBotChar s9
  pure (payLit1 ++ d1 ++ payLit2 ++ d2 ++ payLit3 ++ am ++ payLit4 ++ tp ++ payLit5 ++ bn)

/-- `re.search`: try the pattern at each position, leftmost match wins. -/
def searchPayment : List Char → Option (List Char)
  | [] => matchPaymentAt []
  | c :: t =>
    match matchPaymentAt (c :: t) with
    | Option.some m => Option.some m
    | Option.none => searchPayment t

/-- `TelegramBot.extract_payment_url`: the first substring matching the Click
payment pattern, if any. -/
def extract_payment_url (text : List Char) : Option (List Char) := searchPayment text

theorem matchLit_append : ∀ (l r : List Char), matchLit l (l ++ r) = Option.some r := by
  intro l
  induction l with
  | nil => intro r; rfl
  | cons c t ih => intro r; simp [matchLit, ih]

theorem matchLit_cons_append (c : Char) (l r : List Char) :
    matchLit (c :: l) (c :: (l ++ r)) = Option.some r :=
  matchLit_append (c :: l) r

theorem takeClass_emit (good : Char → Bool) :
    ∀ (r : List Char), (∀ c ∈ r, good c = true) → ∀ (x : Char), good x = false →
      ∀ (s : List Char), takeClass good (r ++ x :: s) = (r, x :: s) := by
  intro r
  induction r with
  | nil =>
    intro _ x hx s
    simp [takeClass, hx]
  | cons c t ih =>
    intro hall x hx s
    have hc : good c = true := hall c (by simp)
    simp only [List.cons_append, takeClass, hc, if_true, List.append_eq]
    rw [ih (fun c2 h2 => hall c2 (by simp [h2])) x hx s]

theorem takeClass_all (good : Char → Bool) :
    ∀ (r : List Char), (∀ c ∈ r, good c = true) → takeClass good r = (r, []) := by
  intro r
  induction r with
  | nil => intro _; rfl
  | cons c t ih =>
    intro hall
    have hc : good c = true := hall c (by simp)
    simp only [takeClass, hc, if_true]
    rw [ih (fun c2 h2 => hall c2 (by simp [h2]))]

theorem matchClass1_emit (good : Char → Bool) (r : List Char) (x : Char) (s : List Char)
    (hne : r ≠ []) (hall : ∀ c ∈ r, good c = true) (hx : good x = false) :
    matchClass1 good (r ++ x :: s) = Option.some (r, x :: s) := by
  unfold matchClass1
  rw [takeClass_emit good r hall x hx s]
  cases r with
  | nil => exact absurd rfl hne
  | cons c t => rfl

theorem matchClass1_all (good : Char → Bool) (r : List Char)
    (hne : r ≠ []) (hall : ∀ c ∈ r, good c = true) :
    matchClass1 good r = Option.some (r, []) := by
  unfold matchClass1
  rw [takeClass_all good r hall]
  cases r with
  | nil => exact absurd rfl hne
  | cons c t => rfl

theorem searchPayment_of_match (s m : List Char) (h : matchPaymentAt s = Option.some m) :
    searchPayment s = Option.some m := by
  cases s with
  | nil => simp [searchPayment, h]
  | cons c t => simp [searchPayment, h]

theorem digitChar_isDigit (n : Nat) : (digitChar n).isDigit = true := by
  rcases n with _ | _ | _ | _ | _ | _ | _ | _ | _ | n <;> rfl

theorem natDigitsAux_spec (good : Char → Bool) (hgood : ∀ m : Nat, good (digitChar m) = true) :
    ∀ fuel n, n < fuel →
      natDigitsAux fuel n ≠ [] ∧ ∀ c ∈ natDigitsAux fuel n, good c = true := by
  intro fuel
  induction fuel with
  | zero => intro n h; omega
  | succ f ih =>
    intro n h
    by_cases h10 : n < 10
    · simp only [natDigitsAux, h10, if_true]
      simp [hgood]
    · have hdiv : n / 10 < f := by
        have h1 : n / 10 < n := Nat.div_lt_self (by omega) (by omega)
        omega
      obtain ⟨hne, hall⟩ := ih (n / 10) hdiv
      simp only [natDigitsAux, h10, if_false]
      constructor
      · simp
      · intro c hc
        rcases List.mem_append.mp hc with hc | hc
        · exact hall c hc
        · simp at hc
          simp [hc, hgood]

theorem fmt2f_amount (p : Rat) (hp : 0 ≤ p) :
    fmt2f p ≠ [] ∧ ∀ c ∈ fmt2f p, isAmountChar c = true := by
  have hdigit : ∀ m : Nat, isAmountChar (digitChar m) = true := by
    intro m
    simp [isAmountChar, digitChar_isDigit]
  have hround : (0 : Int) ≤ round (100 * p) := by
    rw [round_eq]
    have : (0 : Rat) ≤ 100 * p + 1 / 2 := by positivity
    exact_mod_cast Int.floor_nonneg.mpr this
  have hneg : ¬ (round (100 * p) < 0) := by omega
  unfold fmt2f
  simp only [hneg, if_false]
  unfold fmtCents
  obtain ⟨hne, hall⟩ := natDigitsAux_spec isAmountChar hdigit
    ((round (100 * p)).toNat / 100 + 1) ((round (100 * p)).toNat / 100) (by omega)
  constructor
  · simp
  · intro c hc
    rcases List.mem_append.mp hc with hc | hc
    · exact hall c hc
    · simp only [List.mem_cons] at hc
      rcases hc with hc | hc
      · simp [hc, isAmountChar]
      · unfold twoDigits at hc
        simp at hc
        rcases hc with hc | hc <;> simp [hc, hdigit]

/-- Ground prefix of every generated payment URL, up to the amount digits. -/
def payPrefix : List Char :=
  "https://my.click.uz/services/pay/?service_id=30067&merchant_id=22535&amount=".toList

/-- Ground suffix of every generated payment URL, after the amount digits. -/
def paySuffix : List Char :=
  "&transaction_param=165884&return_url=https://t.me/easify_seller_bot".toList

/-- The bot handle matched by the final `[a-zA-Z0-9_]+` run. -/
def botName : List Char := "easify_seller_bot".toList

theorem gen_split (F : List Char) :
    base_url ++ "?service_id=".toList ++ service_id ++ "&merchant_id=".toList ++ merchant_id
      ++ "&amount=".toList ++ F ++ "&transaction_param=".toList ++ transaction_param
      ++ "&return_url=".toList ++ return_url = payPrefix ++ (F ++ paySuffix) := by
  have hP : payPrefix = base_url ++ ("?service_id=".toList ++ (service_id ++
      ("&merchant_id=".toList ++ (merchant_id ++ "&amount=".toList)))) := by decide
  have hS : paySuffix = "&transaction_param=".toList ++ (transaction_param ++
      ("&return_url=".toList ++ return_url)) := by decide
  rw [hP, hS]
  simp [List.append_assoc]

theorem generate_eq_split (p : Rat) :
    generate_payment_url p = payPrefix ++ (fmt2f p ++ paySuffix) := by
  unfold generate_payment_url
  exact gen_split (fmt2f p)

theorem canon_decomp (F : List Char) :
    payPrefix ++ (F ++ paySuffix) =
      payLit1 ++ (service_id ++ ('&' :: ("merchant_id=".toList ++ (merchant_id ++
        ('&' :: ("amount=".toList ++ (F ++ ('&' :: ("transaction_param=".toList ++
        (transaction_param ++ ('&' :: ("return_url=https://t.me/".toList ++
        botName)))))))))))) := by
  have hP : payPrefix = payLit1 ++ (service_id ++ ('&' :: ("merchant_id=".toList ++
      (merchant_id ++ ('&' :: "amount=".toList))))) := by decide
  have hS : paySuffix = '&' :: ("transaction_param=".toList ++ (transaction_param ++
      ('&' :: ("return_url=https://t.me/".toList ++ botName)))) := by decide
  rw [hP, hS]
  simp [List.append_assoc, List.cons_append]

theorem reassemble (F : List Char) :
    payLit1 ++ service_id ++ payLit2 ++ merchant_id ++ payLit3 ++ F ++ payLit4 ++
      transaction_param ++ payLit5 ++ botName =
      payLit1 ++ (service_id ++ ('&' :: ("merchant_id=".toList ++ (merchant_id ++
        ('&' :: ("amount=".toList ++ (F ++ ('&' :: ("transaction_param=".toList ++
        (transaction_param ++ ('&' :: ("return_url=https://t.me/".toList ++
        botName)))))))))))) := by
  have h2 : payLit2 = '&' :: "merchant_id=".toList := by decide
  have h3 : payLit3 = '&' :: "amount=".toList := by decide
  have h4 : payLit4 = '&' :: "transaction_param=".toList := by decide
  have h5 : payLit5 = '&' :: "return_url=https://t.me/".toList := by decide
  rw [h2, h3, h4, h5]
  simp [List.append_assoc, List.cons_append]

theorem matchPaymentAt_generate (p : Rat) (hp : 0 ≤ p) :
    matchPaymentAt (generate_payment_url p) = Option.some (generate_payment_url p) := by
  obtain ⟨hfne, hfall⟩ := fmt2f_amount p hp
  have hcanon := (generate_eq_split p).trans (canon_decomp (fmt2f p))
  have h2 : payLit2 = '&' :: "merchant_id=".toList := by decide
  have h3 : payLit3 = '&' :: "amount=".toList := by decide
  have h4 : payLit4 = '&' :: "transaction_param=".toList := by decide
  have h5 : payLit5 = '&' :: "return_url=https://t.me/".toList := by decide
  have hc1 : ∀ Z, matchClass1 isUrlDigit (service_id ++ ('&' :: Z)) =
      Option.some (service_id, '&' :: Z) := fun Z =>
    matchClass1_emit isUrlDigit service_id '&' Z (by decide) (by decide) (by decide)
  have hc2 : ∀ Z, matchClass1 isUrlDigit (merchant_id ++ ('&' :: Z)) =
      Option.some (merchant_id, '&' :: Z) := fun Z =>
    matchClass1_emit isUrlDigit merchant_id '&' Z (by decide) (by decide) (by decide)
  have hc3 : ∀ Z, matchClass1 isAmountChar (fmt2f p ++ ('&' :: Z)) =
      Option.some (fmt2f p, '&' :: Z) := fun Z =>
    matchClass1_emit isAmountChar (fmt2f p) '&' Z hfne hfall (by decide)
  have hc4 : ∀ Z, matchClass1 isParamChar (transaction_param ++ ('&' :: Z)) =
      Option.some (transaction_param, '&' :: Z) := fun Z =>
    matchClass1_emit isParamChar transaction_param '&' Z (by decide) (by decide) (by decide)
  have hc5 : matchClass1 isBotChar botName = Option.some (botName, []) :=
    matchClass1_all isBotChar botName (by decide) (by decide)
  have hl2 : ∀ Z, matchLit payLit2 ('&' :: ("merchant_id=".toList ++ Z)) =
      Option.some Z := fun Z => by rw [h2]; exact matchLit_cons_append '&' _ Z
  have hl3 : ∀ Z, matchLit payLit3 ('&' :: ("amount=".toList ++ Z)) =
      Option.some Z := fun Z => by rw [h3]; exact matchLit_cons_append '&' _ Z
  have hl4 : ∀ Z, matchLit payLit4 ('&' :: ("transaction_param=".toList ++ Z)) =
      Option.some Z := fun Z => by rw [h4]; exact matchLit_cons_append '&' _ Z
  have hl5 : ∀ Z, matchLit payLit5 ('&' :: ("return_url=https://t.me/".toList ++ Z)) =
      Option.some Z := fun Z => by rw [h5]; exact matchLit_cons_append '&' _ Z
  rw [hcanon]
  simp only [matchPaymentAt, matchLit_append, hc1, hc2, hc3, hc4, hc5, hl2, hl3, hl4, hl5,
    Option.bind_eq_bind, Option.some_bind, Option.pure_def]
  rw [reassemble (fmt2f p)]

/-- C10: for every nonnegative price, the generated Click payment URL (fixed
service/merchant/transaction parameters, amount formatted to two decimals)
matches `extract_payment_url`'s pattern in full, and the extraction returns
exactly the generated URL — so a response carrying a freshly generated
payment link always gets its Pay-Now keyboard. -/
theorem c10_payment_url_roundtrip (price : Rat) (hp : 0 ≤ price) :
    extract_payment_url (generate_payment_url price) =
      Option.some (generate_payment_url price) :=
  searchPayment_of_match _ _ (matchPaymentAt_generate price hp)

/-- C10 witness: the round trip at price 500000 (the system prompt's own
example total, in smallest currency units). -/
theorem c10_witness :
    (0 : Rat) ≤ 500000 ∧
      extract_payment_url (generate_payment_url 500000) =
        Option.some (generate_payment_url 500000) :=
  ⟨by norm_num, c10_payment_url_roundtrip 500000 (by norm_num)⟩

end EasifySeller
